import Mathlib

/-!
Verification development for the stcm2-asm repository: a bidirectional
translator between the STCM2 binary bytecode format and a textual
assembly form.  The Rust sources (src/stcm2.rs, src/disasm.rs,
src/asm.rs) are shallowly embedded below: machine integers are natural
numbers with explicit wrapping where the Rust code can wrap, fallible
code returns an explicit result type, and Rust panics are modelled as a
dedicated result constructor.
-/

set_option maxHeartbeats 4000000
set_option maxRecDepth 200000
set_option linter.unusedVariables false

namespace Stcm2

/-- Outcome of running a fallible Rust computation: a successful value, an
error propagated through the result type, or a panic (index out of
range, integer over/underflow in checked builds, slice out of bounds). -/
inductive DResult (α : Type) where
  | ok (a : α)
  | error (msg : String)
  | panic (msg : String)
deriving DecidableEq, Repr

/-- Whether a result is a success. -/
def DResult.isOkB {α : Type} : DResult α → Bool
  | .ok _ => true
  | _ => false

instance : Monad DResult where
  pure := DResult.ok
  bind x f := match x with
    | .ok a => f a
    | .error m => .error m
    | .panic m => .panic m

/-- Bitwise complement of a `u32` value, as used by the assembler's
sentinel encoding for pending label references. -/
def compl32 (n : ℕ) : ℕ := 2 ^ 32 - 1 - n

/-- Wrapping `u32` subtraction (release-mode Rust semantics); defined for
minuends below `2^32`. -/
def wsub (a b : ℕ) : ℕ := (a + 2 ^ 32 - b % 2 ^ 32) % 2 ^ 32

/-- Wrapping `u32` multiplication. -/
def wmul (a b : ℕ) : ℕ := a * b % 2 ^ 32

/-- Little-endian 4-byte encoding of a `u32`. -/
def toLE4 (n : ℕ) : List ℕ := [n % 256, n / 256 % 256, n / 65536 % 256, n / 16777216 % 256]

/-- Little-endian read of four bytes. -/
def readLE4 (a b c d : ℕ) : ℕ := a + 256 * b + 65536 * c + 16777216 * d

/-- Model of `Bytes::get_u32_le`: `none` models the panic on a buffer with
fewer than four remaining bytes. -/
def getU32 : List ℕ → Option (ℕ × List ℕ)
  | a :: b :: c :: d :: rest => some (readLE4 a b c d, rest)
  | _ => none

/-- Model of `Bytes::split_to`: `none` models the panic when the requested
count exceeds the remaining length. -/
def splitTo (n : ℕ) (l : List ℕ) : Option (List ℕ × List ℕ) :=
  if n ≤ l.length then some (l.take n, l.drop n) else none

/-- Magic bytes of the string `STCM2`. -/
def STCM2_MAGIC : List ℕ := [0x53, 0x54, 0x43, 0x4D, 0x32]

def STCM2_TAG_LENGTH : ℕ := 32 - STCM2_MAGIC.length

/-- Magic bytes of `GLOBAL_DATA` followed by a NUL. -/
def GLOBAL_DATA_MAGIC : List ℕ := [0x47, 0x4C, 0x4F, 0x42, 0x41, 0x4C, 0x5F, 0x44, 0x41, 0x54, 0x41, 0]

def GLOBAL_DATA_OFFSET : ℕ := STCM2_MAGIC.length + STCM2_TAG_LENGTH + 12 * 4 + GLOBAL_DATA_MAGIC.length

/-- Magic bytes of `CODE_START_` followed by a NUL. -/
def CODE_START_MAGIC : List ℕ := [0x43, 0x4F, 0x44, 0x45, 0x5F, 0x53, 0x54, 0x41, 0x52, 0x54, 0x5F, 0]

/-- Magic bytes of `EXPORT_DATA` followed by a NUL. -/
def EXPORT_DATA_MAGIC : List ℕ := [0x45, 0x58, 0x50, 0x4F, 0x52, 0x54, 0x5F, 0x44, 0x41, 0x54, 0x41, 0]

/-- Magic bytes of `COLLECTION_LINK` followed by a NUL. -/
def COLLECTION_LINK_MAGIC : List ℕ :=
  [0x43, 0x4F, 0x4C, 0x4C, 0x45, 0x43, 0x54, 0x49, 0x4F, 0x4E, 0x5F, 0x4C, 0x49, 0x4E, 0x4B, 0]

/-- The operand model of `stcm2.rs`. -/
inductive Parameter where
  | ActionRef (a : ℕ)
  | DataPointer (a : ℕ)
  | Value (a : ℕ)
  | GlobalDataPointer (a : ℕ)
deriving DecidableEq, Repr

/-- One of the two filler sentinel words used in the 3-word operand
encoding. -/
def isFillerWord (w : ℕ) : Prop := w = 0x40000000 ∨ w = 0xff000000

instance (w : ℕ) : Decidable (isFillerWord w) := by
  unfold isFillerWord; infer_instance

/-- Embedding of `Parameter::parse` from `stcm2.rs`: classifies a decoded
3-word operand against the ActionRef marker, the owning action's data
window, the global-data window, and the literal fallback, in that
order.  The `u32` range additions wrap as in release-mode Rust. -/
def Parameter.parse (w0 w1 w2 : ℕ) (data_addr data_len global_data_len : ℕ) :
    DResult Parameter :=
  if w0 = 0xffffff41 ∧ isFillerWord w2 then
    .ok (.ActionRef w1)
  else if isFillerWord w1 ∧ isFillerWord w2 ∧ data_addr ≤ w0 ∧ w0 < (data_addr + data_len) % 2 ^ 32 then
    .ok (.DataPointer (w0 - data_addr))
  else if isFillerWord w1 ∧ isFillerWord w2 ∧ GLOBAL_DATA_OFFSET ≤ w0 ∧
      w0 < (GLOBAL_DATA_OFFSET + global_data_len) % 2 ^ 32 then
    .ok (.GlobalDataPointer (w0 - GLOBAL_DATA_OFFSET))
  else if isFillerWord w1 ∧ isFillerWord w2 then
    .ok (.Value w0)
  else
    .error ("bad parameter")

/-- The `Action` record of `stcm2.rs`: one bytecode instruction. -/
structure Action where
  export_ : Option (List ℕ)
  call : Bool
  opcode : ℕ
  params : List Parameter
  data : List ℕ
deriving DecidableEq, Repr

/-- Record byte length: `16 + 12*|params| + |data|` (`Action::len`). -/
def Action.len (a : Action) : ℕ := 16 + 12 * a.params.length + a.data.length

/-- Drop all trailing zero bytes (`Action::label` with `junk = true`). -/
def dropTrailingZeros (b : List ℕ) : List ℕ := (b.reverse.dropWhile (· = 0)).reverse

/-- Take the bytes before the first zero (`Action::label` with `junk = false`). -/
def takeUntilZero (b : List ℕ) : List ℕ := b.takeWhile (· ≠ 0)

/-- Embedding of `Action::label`: the export name with its NUL padding
trimmed, all trailing zeros when `junk` is set, else up to the first
zero. -/
def Action.label (a : Action) (junk : Bool) : Option (List ℕ) :=
  a.export_.map (fun b => if junk then dropTrailingZeros b else takeUntilZero b)

/-- The decoded file: tag bytes, global-data pool, and the address-keyed
action collection (kept as an association list in ascending address
order, mirroring the `BTreeMap`). -/
structure File where
  tag : List ℕ
  global_data : List ℕ
  actions : List (ℕ × Action)
deriving DecidableEq, Repr

/-- Embedding of the global-data length scan in `from_bytes`: starting at
offset `k`, step forward 4 bytes at a time until `CODE_START_MAGIC` is
found; `none` models the slice-index panic once the offset passes the
end of the buffer.  The loop is given explicit fuel (structural
recursion) so that it evaluates by kernel reduction. -/
def scanGlobalF (file : List ℕ) : ℕ → ℕ → Option ℕ
  | 0, _ => none
  | fuel + 1, k =>
    if k > file.length then none
    else if CODE_START_MAGIC.isPrefixOf (file.drop k) then some k
    else scanGlobalF file fuel (k + 4)

/-- The scan with its fuel instantiated: the offset grows by 4 each
iteration and the loop stops (with the modelled panic) once it passes
the buffer length, so `length + 2` iterations always suffice. -/
def scanGlobal (file : List ℕ) (k : ℕ) : Option ℕ := scanGlobalF file (file.length + 2) k

/-- Read `n` 12-byte operands, classifying each with `Parameter.parse`. -/
def decodeParams (n : ℕ) (data_addr data_len global_data_len : ℕ) (buf : List ℕ) :
    DResult (List Parameter × List ℕ) :=
  match n with
  | 0 => .ok ([], buf)
  | n + 1 =>
    match getU32 buf with
    | none => .panic ("get_u32_le")
    | some (w0, buf) =>
      match getU32 buf with
      | none => .panic ("get_u32_le")
      | some (w1, buf) =>
        match getU32 buf with
        | none => .panic ("get_u32_le")
        | some (w2, buf) =>
          match Parameter.parse w0 w1 w2 data_addr data_len global_data_len with
          | .ok p =>
            match decodeParams n data_addr data_len global_data_len buf with
            | .ok (ps, rest) => .ok (p :: ps, rest)
            | .error m => .error m
            | .panic m => .panic m
          | .error m => .error m
          | .panic m => .panic m

/-- Shared tail of one record decode after the call flag is validated:
the operand list, then the trailing data blob whose size is the
wrapping difference `length - 16 - 12*nparams`. -/
def decodeStepTail (pos global_len : ℕ) (call : Bool) (opcode nparams length : ℕ)
    (buf : List ℕ) : DResult ((ℕ × Action) × List ℕ) :=
  match decodeParams nparams ((pos + 16 + wmul 12 nparams) % 2 ^ 32)
      (wsub (wsub length 16) (wmul 12 nparams)) global_len buf with
  | .error m => .error m
  | .panic m => .panic m
  | .ok (params, buf) =>
    match splitTo (wsub (wsub length 16) (wmul 12 nparams)) buf with
    | none => .panic ("split_to out of range")
    | some (data, buf) =>
      .ok ((pos, { export_ := none, call := call, opcode := opcode, params := params, data := data }), buf)

/-- Decode one action record at absolute offset `pos`: the four header
words, then the operand list and trailing data. -/
def decodeStep (pos global_len : ℕ) (buf : List ℕ) : DResult ((ℕ × Action) × List ℕ) :=
  if pos ≥ 2 ^ 32 then .error ("addr out of range") else
  match getU32 buf with
  | none => .panic ("get_u32_le")
  | some (global_call, buf) =>
    match getU32 buf with
    | none => .panic ("get_u32_le")
    | some (opcode, buf) =>
      match getU32 buf with
      | none => .panic ("get_u32_le")
      | some (nparams, buf) =>
        match getU32 buf with
        | none => .panic ("get_u32_le")
        | some (length, buf) =>
          match global_call with
          | 0 => decodeStepTail pos global_len false opcode nparams length buf
          | 1 => decodeStepTail pos global_len true opcode nparams length buf
          | _ => .error ("global_call")

/-- Proof that a successful `getU32` consumes exactly four bytes. -/
def getU32_len : ∀ (buf : List ℕ) v rest, getU32 buf = some (v, rest) → rest.length + 4 = buf.length := by
  intro buf v rest h
  match buf with
  | a :: b :: c :: d :: r => simp [getU32] at h; simp [h.2.symm]
  | [] => simp [getU32] at h
  | [a] => simp [getU32] at h
  | [a, b] => simp [getU32] at h
  | [a, b, c] => simp [getU32] at h

/-- Proof that `decodeParams` never grows the buffer. -/
def decodeParams_len : ∀ (n da dl gl : ℕ) buf ps rest,
    decodeParams n da dl gl buf = .ok (ps, rest) → rest.length ≤ buf.length := by
  intro n
  induction n with
  | zero => intro da dl gl buf ps rest h; simp [decodeParams] at h; simp [h.2.symm]
  | succ n ih =>
    intro da dl gl buf ps rest h
    rw [decodeParams] at h
    split at h <;> try (solve | simp at h)
    rename_i w0 b1 h0
    split at h <;> try (solve | simp at h)
    rename_i w1 b2 h1
    split at h <;> try (solve | simp at h)
    rename_i w2 b3 h2
    split at h <;> try (solve | simp at h)
    rename_i p hp
    split at h <;> try (solve | simp at h)
    rename_i ps' rest' hr
    simp at h
    rw [← h.2]
    have := ih da dl gl b3 ps' rest' hr
    have e0 := getU32_len _ _ _ h0
    have e1 := getU32_len _ _ _ h1
    have e2 := getU32_len _ _ _ h2
    omega

/-- Proof that a successful `splitTo` never grows the buffer. -/
def splitTo_len : ∀ (n : ℕ) buf a rest, splitTo n buf = some (a, rest) → rest.length ≤ buf.length := by
  intro n buf a rest h
  simp only [splitTo] at h
  split at h
  · simp at h; rw [← h.2]; simp
  · simp at h

/-- Proof that a successful `decodeStepTail` consumes at least the bytes
it reads after the header. -/
def decodeStepTail_len : ∀ (pos gl : ℕ) call opcode np lg buf a rest,
    decodeStepTail pos gl call opcode np lg buf = .ok (a, rest) → rest.length ≤ buf.length := by
  intro pos gl call opcode np lg buf a rest h
  rw [decodeStepTail] at h
  split at h <;> try (solve | simp at h)
  rename_i params b1 hp
  split at h <;> try (solve | simp at h)
  rename_i data b2 hs
  simp at h
  have h1 := decodeParams_len _ _ _ _ _ _ _ hp
  have h2 := splitTo_len _ _ _ _ hs
  rw [← h.2]
  omega

/-- Proof that a successful `decodeStep` strictly shrinks the buffer (it
always consumes the 16-byte header). -/
def decodeStep_len : ∀ (pos gl : ℕ) buf a rest,
    decodeStep pos gl buf = .ok (a, rest) → rest.length < buf.length := by
  intro pos gl buf a rest h
  rw [decodeStep] at h
  split at h <;> try (solve | simp at h)
  split at h <;> try (solve | simp at h)
  rename_i gc b1 h0
  split at h <;> try (solve | simp at h)
  rename_i op b2 h1
  split at h <;> try (solve | simp at h)
  rename_i np b3 h2
  split at h <;> try (solve | simp at h)
  rename_i lg b4 h3
  have e0 := getU32_len _ _ _ h0
  have e1 := getU32_len _ _ _ h1
  have e2 := getU32_len _ _ _ h2
  have e3 := getU32_len _ _ _ h3
  split at h <;> try (solve | simp at h)
  · have := decodeStepTail_len _ _ _ _ _ _ _ _ _ h; omega
  · have := decodeStepTail_len _ _ _ _ _ _ _ _ _ h; omega

/-- Association-list lookup for the action map. -/
def lookupAction (acts : List (ℕ × Action)) (addr : ℕ) : Option Action :=
  match acts.find? (fun p => p.1 = addr) with
  | some p => some p.2
  | none => none

/-- The action-decoding loop of `from_bytes`: decode records while the
current absolute offset is below the export-section boundary. -/
def decodeActionsF (boundary global_len : ℕ) :
    ℕ → ℕ → List ℕ → List (ℕ × Action) → DResult (List (ℕ × Action) × ℕ × List ℕ)
  | 0, _, _, _ => .panic ("fuel exhausted")
  | fuel + 1, pos, buf, acc =>
    if pos < boundary then
      match decodeStep pos global_len buf with
      | .error m => .error m
      | .panic m => .panic m
      | .ok (a, buf') =>
        if lookupAction acc a.1 = none then
          decodeActionsF boundary global_len fuel (pos + (buf.length - buf'.length)) buf' (acc ++ [a])
        else .error ("duplicate address")
    else .ok (acc, pos, buf)

/-- The decode loop with its fuel instantiated: by `decodeStep_len` each
iteration strictly consumes buffer bytes, so `length + 1` iterations
always suffice and the fuel case is unreachable. -/
def decodeActions (boundary global_len pos : ℕ) (buf : List ℕ)
    (acc : List (ℕ × Action)) : DResult (List (ℕ × Action) × ℕ × List ℕ) :=
  decodeActionsF boundary global_len (buf.length + 1) pos buf acc

/-- Replace the export field of the action at `addr`. -/
def setExport (acts : List (ℕ × Action)) (addr : ℕ) (e : List ℕ) : List (ℕ × Action) :=
  acts.map (fun p => if p.1 = addr then (p.1, { p.2 with export_ := some e }) else p)

/-- The export-record loop of `from_bytes`: each record is a zero word, a
32-byte name, and the exported action's address. -/
def decodeExports (n : ℕ) (acts : List (ℕ × Action)) (buf : List ℕ) :
    DResult (List (ℕ × Action) × List ℕ) :=
  match n with
  | 0 => .ok (acts, buf)
  | n + 1 =>
    match getU32 buf with
    | none => .panic ("get_u32_le")
    | some (z, buf) =>
      if z ≠ 0 then .error ("export zero word") else
      match splitTo 32 buf with
      | none => .panic ("split_to out of range")
      | some (name, buf) =>
        match getU32 buf with
        | none => .panic ("get_u32_le")
        | some (addr, buf) =>
          match lookupAction acts addr with
          | none => .error ("export does not match known action")
          | some act =>
            if act.export_ ≠ none then .error ("duplicate export") else
            decodeExports n (setExport acts addr name) buf

/-- Embedding of `from_bytes` from `stcm2.rs`: validates the magic
sections, scans for the global-data length, decodes the action stream
up to the export boundary, and attaches export names.  Positions are
absolute offsets from the start of the file, as measured by `get_pos`. -/
def from_bytes (file : List ℕ) : DResult File :=
  if ¬ STCM2_MAGIC.isPrefixOf file then .error ("bad STCM2 magic") else
  let buf := file.drop STCM2_MAGIC.length
  let tag := buf.take STCM2_TAG_LENGTH
  let buf := buf.drop STCM2_TAG_LENGTH
  match getU32 buf with
  | none => .panic ("get_u32_le")
  | some (export_addr, buf) =>
    match getU32 buf with
    | none => .panic ("get_u32_le")
    | some (export_len, buf) =>
      match getU32 buf with
      | none => .panic ("get_u32_le")
      | some (_unk1, buf) =>
        match getU32 buf with
        | none => .panic ("get_u32_le")
        | some (_collection_addr, buf) =>
          match splitTo 32 buf with
          | none => .panic ("split_to out of range")
          | some (_unk, buf) =>
            if ¬ GLOBAL_DATA_MAGIC.isPrefixOf buf then .error ("bad GLOBAL_DATA magic") else
            let buf := buf.drop GLOBAL_DATA_MAGIC.length
            if file.length - buf.length ≠ GLOBAL_DATA_OFFSET then .error ("global data offset") else
            match scanGlobal buf 0 with
            | none => .panic ("slice index out of range")
            | some global_len =>
              let global_data := buf.take global_len
              let buf := buf.drop global_len
              if ¬ CODE_START_MAGIC.isPrefixOf buf then .error ("bad CODE_START magic") else
              let buf := buf.drop CODE_START_MAGIC.length
              match decodeActions ((export_addr + 2 ^ 64 - EXPORT_DATA_MAGIC.length) % 2 ^ 64) global_len
                  (file.length - buf.length) buf [] with
              | .error m => .error m
              | .panic m => .panic m
              | .ok (actions, _, buf) =>
                if ¬ EXPORT_DATA_MAGIC.isPrefixOf buf then .error ("bad EXPORT_DATA magic") else
                let buf := buf.drop EXPORT_DATA_MAGIC.length
                match decodeExports export_len actions buf with
                | .error m => .error m
                | .panic m => .panic m
                | .ok (actions, _) =>
                  .ok { tag := tag, global_data := global_data, actions := actions }

/-! ### The chunking heuristic of `disasm.rs` (`chunk_actions`)

The `BTreeSet` of labels is modelled as a plain list used with set
semantics: the only observable use of a label set is the disjointness
test driving the merge loop, which is insensitive to duplicates and
ordering. -/

/-- The labels an action contributes to its chunk: its own address plus
every `ActionRef` target among its operands. -/
def labelsOfAct (addr : ℕ) (act : Action) : List ℕ :=
  addr :: act.params.filterMap (fun p => match p with | .ActionRef a => some a | _ => none)

/-- A chunk under construction: its label set and its member actions. -/
abbrev LChunk := List ℕ × List (ℕ × Action)

/-- First phase of `chunk_actions`: walk the actions in address order,
accumulating labels and members, and close the current chunk after each
bare terminator (`call = false`, `opcode = 0`). -/
def splitChunksAux : List (ℕ × Action) → List ℕ → List (ℕ × Action) → List LChunk
  | [], curL, curC => if curC.isEmpty then [] else [(curL, curC)]
  | (a, act) :: rest, curL, curC =>
    let curL := curL ++ labelsOfAct a act
    let curC := curC ++ [(a, act)]
    if act.call = false ∧ act.opcode = 0 then
      (curL, curC) :: splitChunksAux rest [] []
    else
      splitChunksAux rest curL curC

/-- Boolean disjointness of two label lists (`BTreeSet::is_disjoint`). -/
def disjointB (a b : List ℕ) : Bool := a.all (fun x => ! b.contains x)

/-- Index of the last chunk in `l` whose label set intersects `h`
(the reversed scan `enumerate().skip(cur+1).rev()` of the source). -/
def lastIntersect (h : List ℕ) : List LChunk → Option ℕ
  | [] => none
  | c :: rest =>
    match lastIntersect h rest with
    | some i => some (i + 1)
    | none => if disjointB h c.1 then none else some 0

/-- Proof that `lastIntersect` returns an index inside the list. -/
def lastIntersect_lt : ∀ (h : List ℕ) (l : List LChunk) i, lastIntersect h l = some i → i < l.length := by
  intro h l
  induction l with
  | nil => intro i hi; simp [lastIntersect] at hi
  | cons c rest ih =>
    intro i hi
    rw [lastIntersect] at hi
    split at hi
    · rename_i j hj
      simp at hi
      have := ih j hj
      simp
      omega
    · split at hi
      · simp at hi
      · simp at hi
        simp [← hi]

/-- Inner merge loop of `chunk_actions`: repeatedly find the last later
chunk intersecting the current one and absorb everything up to it,
until the current chunk is disjoint from all later ones.  Each merge
strictly reduces the number of chunks, which is the termination
measure. -/
def mergeLoopF : ℕ → LChunk → List LChunk → LChunk × List LChunk
  | 0, c, post => (c, post)
  | fuel + 1, c, post =>
    match lastIntersect c.1 post with
    | none => (c, post)
    | some i =>
      mergeLoopF fuel
        (c.1 ++ ((post.take (i + 1)).map Prod.fst).flatten,
         c.2 ++ ((post.take (i + 1)).map Prod.snd).flatten)
        (post.drop (i + 1))

/-- The merge loop with its fuel instantiated: each merge absorbs at
least one later chunk (`lastIntersect_lt`), so the chunk count plus one
bounds the iterations. -/
def mergeLoop (c : LChunk) (post : List LChunk) : LChunk × List LChunk :=
  mergeLoopF (post.length + 1) c post

/-- Proof that the merge loop never lengthens the chunk list. -/
def mergeLoopF_len : ∀ (fuel : ℕ) (c : LChunk) (post : List LChunk),
    (mergeLoopF fuel c post).2.length ≤ post.length := by
  intro fuel
  induction fuel with
  | zero => intro c post; simp [mergeLoopF]
  | succ fuel ih =>
    intro c post
    rw [mergeLoopF]
    split
    · simp
    · rename_i i hli
      have hlt := lastIntersect_lt _ _ _ hli
      have := ih
        (c.1 ++ ((post.take (i + 1)).map Prod.fst).flatten,
         c.2 ++ ((post.take (i + 1)).map Prod.snd).flatten)
        (post.drop (i + 1))
      have hdl : (post.drop (i + 1)).length = post.length - (i + 1) := by simp
      omega

def mergeAllF : ℕ → List LChunk → List LChunk
  | 0, l => l
  | _, [] => []
  | fuel + 1, c :: rest => (mergeLoop c rest).1 :: mergeAllF fuel (mergeLoop c rest).2

/-- Outer loop of `chunk_actions`: settle each chunk in turn against the
chunks after it; `mergeLoopF_len` bounds the surviving chunk count, so
fuel `length + 1` always suffices. -/
def mergeAll (l : List LChunk) : List LChunk := mergeAllF (l.length + 1) l

/-- Embedding of `chunk_actions` from `disasm.rs`: split on bare returns,
then merge chunks whose label sets intersect; the label sets are
dropped from the result. -/
def chunk_actions (acts : List (ℕ × Action)) : List (List (ℕ × Action)) :=
  (mergeAll (splitChunksAux acts [] [])).map Prod.snd

/-! ### The data-pool cell decoder of `disasm.rs` (`decode_string`) -/

/-- A decoded data-pool cell: a text payload, or a 4-byte integer of cell
type 0 or 1. -/
inductive StringType where
  | String (b : List ℕ)
  | Type0U32 (n : ℕ)
  | Type1U32 (n : ℕ)
deriving DecidableEq, Repr

/-- Cell type written back for a decoded cell (`StringType::type_`). -/
def StringType.type_ : StringType → ℕ
  | .String _ => 0
  | .Type0U32 _ => 0
  | .Type1U32 _ => 1

/-- The integer-range heuristic of `decode_string`: 4-byte payloads whose
`u32` value looks like a script constant stay strings. -/
def looksLikeConstant (n : ℕ) : Prop := (0x100000 ≤ n ∧ n < 0x1000000) ∨ n = 28783

instance (n : ℕ) : Decidable (looksLikeConstant n) := by
  unfold looksLikeConstant; infer_instance

/-- Number of trailing zero bytes of a payload. -/
def trailingZeros (b : List ℕ) : ℕ := (b.reverse.takeWhile (· = 0)).length

/-- Text path of `decode_string`: require cell type 0 and strip the 1–4
trailing zero bytes of canonical padding. -/
def decode_string_text (type_ : ℕ) (payload tail : List ℕ) : DResult (StringType × List ℕ) :=
  if type_ ≠ 0 then .error ("string type is 1 but is not a u32") else
  if ¬ (1 ≤ trailingZeros payload ∧ trailingZeros payload ≤ 4) then .error ("string is not canonical") else
  .ok (.String (payload.take (payload.length - trailingZeros payload)), tail)

/-- Embedding of `decode_string` from `disasm.rs`: advance to `addr`,
read and validate the 16-byte cell header, slice the payload, apply the
4-byte integer heuristic, and otherwise decode canonical text. -/
def decode_string (addr : ℕ) (str0 : List ℕ) : DResult (StringType × List ℕ) :=
  if addr > str0.length then .panic ("advance out of range") else
  if (str0.drop addr).length ≤ 16 then .error ("not enough room for magic") else
  match getU32 (str0.drop addr) with
  | none => .panic ("get_u32_le")
  | some (type_, str) =>
    if ¬ (type_ = 0 ∨ type_ = 1) then .error ("string magic is not 0 or 1") else
    match getU32 str with
    | none => .panic ("get_u32_le")
    | some (qlen, str) =>
      match getU32 str with
      | none => .panic ("get_u32_le")
      | some (one, str) =>
        if one ≠ 1 then .error ("string magic is not 1") else
        match getU32 str with
        | none => .panic ("get_u32_le")
        | some (len, str) =>
          if len ≠ wmul qlen 4 then .error ("len and qlen are inconsistent") else
          if str.length < len then .error ("not enough room for string data") else
          match str.take len with
          | pa :: pb :: pc :: pd :: [] =>
            if type_ = 1 ∨ ¬ looksLikeConstant (readLE4 pa pb pc pd) then
              if type_ = 0 then .ok (.Type0U32 (readLE4 pa pb pc pd), str.drop len)
              else .ok (.Type1U32 (readLE4 pa pb pc pd), str.drop len)
            else decode_string_text type_ (str.take len) (str.drop len)
          | _ => decode_string_text type_ (str.take len) (str.drop len)

/-- Proof that the text path returns its given tail unchanged. -/
def decode_string_text_tail : ∀ (t : ℕ) p tl s tl',
    decode_string_text t p tl = .ok (s, tl') → tl' = tl := by
  intro t p tl s tl' h
  rw [decode_string_text] at h
  split at h <;> try (solve | simp at h)
  split at h <;> try (solve | simp at h)
  simp at h
  exact h.2.symm

/-- Proof that a successful cell decode consumes at least the offset and
the 16-byte header. -/
def decode_string_len : ∀ (addr : ℕ) str0 s tail,
    decode_string addr str0 = .ok (s, tail) → addr + 16 + tail.length ≤ str0.length := by
  intro addr str0 s tail h
  rw [decode_string] at h
  split at h <;> try (solve | simp at h)
  rename_i haddr
  split at h <;> try (solve | simp at h)
  rename_i hlen
  split at h <;> try (solve | simp at h)
  rename_i t1 b1 h1
  split at h <;> try (solve | simp at h)
  split at h <;> try (solve | simp at h)
  rename_i q1 b2 h2
  split at h <;> try (solve | simp at h)
  rename_i o1 b3 h3
  split at h <;> try (solve | simp at h)
  split at h <;> try (solve | simp at h)
  rename_i l1 b4 h4
  split at h <;> try (solve | simp at h)
  split at h <;> try (solve | simp at h)
  rename_i hroom
  have e1 := getU32_len _ _ _ h1
  have e2 := getU32_len _ _ _ h2
  have e3 := getU32_len _ _ _ h3
  have e4 := getU32_len _ _ _ h4
  have hd : (str0.drop addr).length = str0.length - addr := by simp
  have hb4 : (b4.drop l1).length = b4.length - l1 := by simp
  simp only [not_le, not_lt] at hlen hroom
  split at h
  · split at h
    · split at h <;>
      · simp at h
        rw [← h.2] at *
        omega
    · have := decode_string_text_tail _ _ _ _ _ h
      rw [this] at *
      omega
  · have := decode_string_text_tail _ _ _ _ _ h
    rw [this] at *
    omega

/-- One action's private data pool, scanned as in the disassembler's
inner loop: at each offset try `decode_string`; on success record the
cell at its absolute offset and continue after it; bytes skipped before
the first cell (or the whole pool if no cell parses) are junk, and junk
after the first decoded cell is an error. -/
def scanDataAux (origLen : ℕ) :
    ℕ → List ℕ → ℕ → Bool → List ℕ → List (ℕ × StringType) →
    DResult (List (ℕ × StringType) × List ℕ)
  | 0, _, _, _, _, _ => .panic ("fuel exhausted")
  | fuel + 1, data, pos, atBeginning, junk, acc =>
    if pos < data.length then
      match decode_string pos data with
      | .ok (s, tail) =>
        if pos ≠ 0 ∧ ¬ atBeginning then .error ("junk found after beginning") else
        scanDataAux origLen fuel tail 0 false (if pos ≠ 0 then data.take pos else junk)
          (acc ++ [(pos + (origLen - data.length), s)])
      | .error _ => scanDataAux origLen fuel data (pos + 1) atBeginning junk acc
      | .panic m => .panic m
    else
      if data.isEmpty then .ok (acc, junk)
      else if ¬ atBeginning then .error ("junk found after beginning")
      else .ok (acc, data)

/-- Scan one action's data pool (`pos`, `junk` and the decoded-cell map
start empty).  By `decode_string_len` every successful cell consumes at
least 16 bytes of the pool while failures advance the offset, so
`(length + 2)^2` iterations always suffice. -/
def scanData (data : List ℕ) : DResult (List (ℕ × StringType) × List ℕ) :=
  scanDataAux data.length ((data.length + 2) * (data.length + 2)) data 0 true [] []


/-! ### Text helpers: formatting, parsing, UTF-8, base64

The external text codec (UTF-8 or Shift-JIS via `encoding_rs`) is an
out-of-scope collaborator of the repository; the embeddings below take
the codec as a function argument, and a concrete UTF-8 codec is
provided for instantiating example runs. -/

/-- Uppercase hexadecimal digit. -/
def hexDigitUpper (d : ℕ) : Char := if d < 10 then Char.ofNat (48 + d) else Char.ofNat (55 + d)

/-- Lowercase hexadecimal digit. -/
def hexDigitLower (d : ℕ) : Char := if d < 10 then Char.ofNat (48 + d) else Char.ofNat (87 + d)

def natToHexAux : ℕ → ℕ → List Char → List Char
  | 0, _, acc => acc
  | fuel + 1, n, acc =>
    if n = 0 then acc else natToHexAux fuel (n / 16) (hexDigitUpper (n % 16) :: acc)

/-- Uppercase hex rendering of a natural number (Rust `{:X}`); a number
has no more digits than its own value, so `n` is sufficient fuel. -/
def natToHexUpper (n : ℕ) : List Char := if n = 0 then ['0'] else natToHexAux n n []

def natToHexLowerAux : ℕ → ℕ → List Char → List Char
  | 0, _, acc => acc
  | fuel + 1, n, acc =>
    if n = 0 then acc else natToHexLowerAux fuel (n / 16) (hexDigitLower (n % 16) :: acc)

/-- Lowercase hex rendering of a natural number (Rust `{:x}`). -/
def natToHexLower (n : ℕ) : List Char := if n = 0 then ['0'] else natToHexLowerAux n n []

/-- Lowercase hex rendering padded to at least two digits (Rust `{:02x}`). -/
def natToHex02 (n : ℕ) : List Char :=
  let s := natToHexLower n
  List.replicate (2 - s.length) '0' ++ s

/-- Uppercase hex rendering padded to at least six digits (Rust `{:06X}`). -/
def natToHex06 (n : ℕ) : List Char :=
  let s := natToHexUpper n
  List.replicate (6 - s.length) '0' ++ s

def natToDecAux : ℕ → ℕ → List Char → List Char
  | 0, _, acc => acc
  | fuel + 1, n, acc =>
    if n = 0 then acc else natToDecAux fuel (n / 10) (Char.ofNat (48 + n % 10) :: acc)

/-- Decimal rendering of a natural number. -/
def natToDec (n : ℕ) : List Char := if n = 0 then ['0'] else natToDecAux n n []

/-- Value of a hexadecimal digit character (either case). -/
def hexVal (c : Char) : Option ℕ :=
  if '0' ≤ c ∧ c ≤ '9' then some (c.toNat - 48)
  else if 'a' ≤ c ∧ c ≤ 'f' then some (c.toNat - 87)
  else if 'A' ≤ c ∧ c ≤ 'F' then some (c.toNat - 55)
  else none

/-- Value of a lowercase-only hexadecimal digit, as required by the
`\xHH` escape patterns of the sources. -/
def hexValLower (c : Char) : Option ℕ :=
  if '0' ≤ c ∧ c ≤ '9' then some (c.toNat - 48)
  else if 'a' ≤ c ∧ c ≤ 'f' then some (c.toNat - 87)
  else none

/-- Whether a character is an uppercase hex digit (`[0-9A-F]`). -/
def isHexUpperDigit (c : Char) : Bool := ('0' ≤ c ∧ c ≤ '9') ∨ ('A' ≤ c ∧ c ≤ 'F')

def parseDigitsAux (base : ℕ) (digitVal : Char → Option ℕ) (l : List Char) (acc : ℕ) : Option ℕ :=
  match l with
  | [] => some acc
  | c :: rest =>
    match digitVal c with
    | none => none
    | some d => parseDigitsAux base digitVal rest (acc * base + d)

/-- Model of Rust `u32::from_str_radix(s, 16)`: optional leading `+`, at
least one digit, overflow is an error. -/
def parseU32Hex (l : List Char) : Option ℕ :=
  let l := match l with | '+' :: rest => rest | _ => l
  if l.isEmpty then none else
  match parseDigitsAux 16 hexVal l 0 with
  | none => none
  | some v => if v < 2 ^ 32 then some v else none

/-- Model of Rust `str::parse::<u32>`: optional leading `+`, at least one
decimal digit, overflow is an error. -/
def parseU32Dec (l : List Char) : Option ℕ :=
  let l := match l with | '+' :: rest => rest | _ => l
  if l.isEmpty then none else
  match parseDigitsAux 10 (fun c => if '0' ≤ c ∧ c ≤ '9' then some (c.toNat - 48) else none) l 0 with
  | none => none
  | some v => if v < 2 ^ 32 then some v else none

/-- UTF-8 encoding of one character. -/
def utf8EncodeChar (c : Char) : List ℕ :=
  let n := c.toNat
  if n < 0x80 then [n]
  else if n < 0x800 then [0xC0 + n / 64, 0x80 + n % 64]
  else if n < 0x10000 then [0xE0 + n / 4096, 0x80 + n / 64 % 64, 0x80 + n % 64]
  else [0xF0 + n / 262144, 0x80 + n / 4096 % 64, 0x80 + n / 64 % 64, 0x80 + n % 64]

/-- UTF-8 encoding of a character list (the concrete text codec used to
instantiate the parameterised embeddings). -/
def utf8Encode (s : List Char) : List ℕ := (s.map utf8EncodeChar).flatten

/-- Whether a byte is a UTF-8 continuation byte. -/
def isCont (b : ℕ) : Prop := 0x80 ≤ b ∧ b < 0xC0

instance (b : ℕ) : Decidable (isCont b) := by unfold isCont; infer_instance

/-- Strict UTF-8 decoding (`str::from_utf8`): rejects truncated and
overlong sequences, surrogates, and values beyond `0x10FFFF`. -/
def utf8Decode : List ℕ → Option (List Char)
  | [] => some []
  | b :: rest =>
    if b < 0x80 then (utf8Decode rest).map (fun t => Char.ofNat b :: t)
    else if b < 0xC2 then none
    else if b < 0xE0 then
      match rest with
      | c1 :: rest' =>
        if isCont c1 then (utf8Decode rest').map (fun t => Char.ofNat ((b - 0xC0) * 64 + (c1 - 0x80)) :: t)
        else none
      | _ => none
    else if b < 0xF0 then
      match rest with
      | c1 :: c2 :: rest' =>
        if isCont c1 ∧ isCont c2 then
          let n := (b - 0xE0) * 4096 + (c1 - 0x80) * 64 + (c2 - 0x80)
          if 0x800 ≤ n ∧ ¬ (0xD800 ≤ n ∧ n < 0xE000) then
            (utf8Decode rest').map (fun t => Char.ofNat n :: t)
          else none
        else none
      | _ => none
    else if b < 0xF5 then
      match rest with
      | c1 :: c2 :: c3 :: rest' =>
        if isCont c1 ∧ isCont c2 ∧ isCont c3 then
          let n := (b - 0xF0) * 262144 + (c1 - 0x80) * 4096 + (c2 - 0x80) * 64 + (c3 - 0x80)
          if 0x10000 ≤ n ∧ n ≤ 0x10FFFF then
            (utf8Decode rest').map (fun t => Char.ofNat n :: t)
          else none
        else none
      | _ => none
    else none

/-- Character of the standard base64 alphabet. -/
def b64Char (n : ℕ) : Char :=
  if n < 26 then Char.ofNat (65 + n)
  else if n < 52 then Char.ofNat (97 + (n - 26))
  else if n < 62 then Char.ofNat (48 + (n - 52))
  else if n = 62 then '+'
  else '/'

/-- Standard unpadded base64 encoding (`BASE64_STANDARD_NO_PAD`). -/
def base64Encode : List ℕ → List Char
  | [] => []
  | [a] => [b64Char (a / 4), b64Char (a % 4 * 16)]
  | [a, b] => [b64Char (a / 4), b64Char (a % 4 * 16 + b / 16), b64Char (b % 16 * 4)]
  | a :: b :: c :: rest =>
    b64Char (a / 4) :: b64Char (a % 4 * 16 + b / 16) :: b64Char (b % 16 * 4 + c / 64) ::
      b64Char (c % 64) :: base64Encode rest

/-- Value of a standard base64 alphabet character. -/
def b64Val (c : Char) : Option ℕ :=
  if 'A' ≤ c ∧ c ≤ 'Z' then some (c.toNat - 65)
  else if 'a' ≤ c ∧ c ≤ 'z' then some (c.toNat - 97 + 26)
  else if '0' ≤ c ∧ c ≤ '9' then some (c.toNat - 48 + 52)
  else if c = '+' then some 62
  else if c = '/' then some 63
  else none

/-- Standard unpadded base64 decoding: rejects invalid characters, a
trailing group of one character, and nonzero trailing bits. -/
def base64Decode : List Char → Option (List ℕ)
  | [] => some []
  | [_] => none
  | [c1, c2] =>
    match b64Val c1, b64Val c2 with
    | some v1, some v2 => if v2 % 16 = 0 then some [v1 * 4 + v2 / 16] else none
    | _, _ => none
  | [c1, c2, c3] =>
    match b64Val c1, b64Val c2, b64Val c3 with
    | some v1, some v2, some v3 =>
      if v3 % 4 = 0 then some [v1 * 4 + v2 / 16, v2 % 16 * 16 + v3 / 4] else none
    | _, _, _ => none
  | c1 :: c2 :: c3 :: c4 :: rest =>
    match b64Val c1, b64Val c2, b64Val c3, b64Val c4, base64Decode rest with
    | some v1, some v2, some v3, some v4, some bs =>
      some ((v1 * 4 + v2 / 16) :: (v2 % 16 * 16 + v3 / 4) :: (v3 % 4 * 64 + v4) :: bs)
    | _, _, _, _, _ => none

/-- ASCII whitespace, as recognised by `str::trim_ascii_start`. -/
def isAsciiWs (c : Char) : Bool := c = ' ' ∨ c = '\t' ∨ c = '\n' ∨ c = '\x0d' ∨ c = '\x0c'

/-- Rust `char::is_control`: C0 and C1 control codes plus DEL. -/
def isControlChar (c : Char) : Bool := c.toNat < 0x20 ∨ (0x7F ≤ c.toNat ∧ c.toNat ≤ 0x9F)

/-- Whether a character list is pure ASCII (`str::is_ascii`). -/
def isAsciiStr (l : List Char) : Bool := l.all (fun c => c.toNat < 128)

/-! ### The disassembler (`disasm.rs`)

The text codec used to decode string cells
(`decode_with_hex_replacement` over the selected `encoding_rs`
encoding) is out of scope per the specification and is taken as a
black-box function argument `decodeHex`. -/

/-- Mnemonic table: a bidirectional name/opcode map, `[("return", 0)]`
by default. -/
abbrev Mnemonics := List (List Char × ℕ)

def getByLeft (m : Mnemonics) (name : List Char) : Option ℕ :=
  (m.find? (fun p => p.1 = name)).map Prod.snd

def getByRight (m : Mnemonics) (op : ℕ) : Option (List Char) :=
  (m.find? (fun p => p.2 = op)).map Prod.fst

/-- The default mnemonic table used when no external table is loaded. -/
def defaultMnemonics : Mnemonics := [("return".toList, 0)]

/-- Bytes of `format!("{prefix}_{addr:X}")` (`autolabel`). -/
def autolabel (pre : List Char) (addr : ℕ) : List ℕ :=
  utf8Encode (pre ++ '_' :: natToHexUpper addr)

/-- Whether a byte needs no escaping in a label (`[!-\[\]-~]`, that is,
printable ASCII except space and backslash). -/
def isLegalLabelByte (b : ℕ) : Bool := (0x21 ≤ b ∧ b ≤ 0x5B) ∨ (0x5D ≤ b ∧ b ≤ 0x7E)

/-- Embedding of `label_to_string`: escape every illegal byte as `\xHH`. -/
def label_to_string (label : List ℕ) : List Char :=
  (label.map (fun b =>
    if isLegalLabelByte b then [Char.ofNat b] else '\\' :: 'x' :: natToHex02 b)).flatten

/-- Sorted-map lookup for the autolabel table (`BTreeMap`). -/
def alGet (m : List (ℕ × List ℕ)) (k : ℕ) : Option (List ℕ) :=
  (m.find? (fun p => p.1 = k)).map Prod.snd

/-- Sorted-map insertion for the autolabel table. -/
def alSet (m : List (ℕ × List ℕ)) (k : ℕ) (v : List ℕ) : List (ℕ × List ℕ) :=
  match m with
  | [] => [(k, v)]
  | (k', v') :: rest =>
    if k = k' then (k, v) :: rest
    else if k < k' then (k, v) :: (k', v') :: rest
    else (k', v') :: alSet rest k v

/-- Autolabel contribution of an action's call target: a `fn_` label for
an unexported call target, overriding any `local_` label. -/
def alCallStep (acts : List (ℕ × Action)) (m : List (ℕ × List ℕ)) (act : Action) :
    DResult (List (ℕ × List ℕ)) :=
  if act.call then
    match lookupAction acts act.opcode with
    | none => .error ("bruh0")
    | some target =>
      if target.export_ = none then
        if [0x66, 0x6E].isPrefixOf ((alGet m act.opcode).getD []) then .ok m
        else .ok (alSet m act.opcode (autolabel ("fn").toList act.opcode))
      else .ok m
  else .ok m

/-- Autolabel contribution of one operand: a `local_` label for an
unexported `ActionRef` target not yet labelled. -/
def alParamStep (acts : List (ℕ × Action)) (m : List (ℕ × List ℕ)) (p : Parameter) :
    DResult (List (ℕ × List ℕ)) :=
  match p with
  | .ActionRef addr =>
    match lookupAction acts addr with
    | none => .error ("bruh9")
    | some target =>
      if target.export_ = none then
        if ((alGet m addr).getD []).isEmpty then .ok (alSet m addr (autolabel ("local").toList addr))
        else .ok m
      else .ok m
  | _ => .ok m

/-- Build the symbol table of inferred labels (the first loop of
`disasm::main`). -/
def buildAutolabels (acts : List (ℕ × Action)) : DResult (List (ℕ × List ℕ)) :=
  acts.foldlM (fun m p => do
    let m ← alCallStep acts m p.2
    p.2.params.foldlM (fun m q => alParamStep acts m q) m) []

/-- Attach one inferred label to its action (the `range_mut` walk of
`disasm::main`); the address always names a known, unexported action. -/
def applyAutolabel1 (acts : List (ℕ × Action)) (addr : ℕ) (label : List ℕ) :
    DResult (List (ℕ × Action)) :=
  match lookupAction acts addr with
  | none => .error ("this should never happen 2")
  | some act =>
    if act.export_ ≠ none then .error ("autolabel export conflict")
    else .ok (setExport acts addr label)

def applyAutolabels (acts : List (ℕ × Action)) (m : List (ℕ × List ℕ)) :
    DResult (List (ℕ × Action)) :=
  m.foldlM (fun acts p => applyAutolabel1 acts p.1 p.2) acts

/-- The U+1F5FF replacement marker used by `decode_with_hex_replacement`. -/
def moaiChar : Char := Char.ofNat 0x1F5FF

/-- Escape a decoded string for the text output (`\xHH` for control
characters, `\` for the replacement marker, `\"` and `\\`). -/
def escapeStringChars (s : List Char) : List Char :=
  (s.map (fun ch =>
    if isControlChar ch then '\\' :: 'x' :: natToHex02 ch.toNat
    else if ch = moaiChar then ['\\']
    else if ch = '"' ∨ ch = '\\' then ['\\', ch]
    else [ch])).flatten

/-- Render one operand of an action (the parameter loop of
`disasm::main`). -/
def renderParam (decodeHex : List ℕ → List Char) (junk : Bool) (acts : List (ℕ × Action))
    (dataPos : List (ℕ × StringType)) (p : Parameter) : DResult (List Char) :=
  match p with
  | .Value v => .ok ((", ").toList ++ natToHexUpper v)
  | .ActionRef addr =>
    match lookupAction acts addr with
    | none => .error ("bruh5")
    | some t =>
      match t.label junk with
      | none => .error ("bruh6")
      | some l => .ok ((", [").toList ++ label_to_string l ++ [']'])
  | .DataPointer addr =>
    match (dataPos.find? (fun q => q.1 = addr)).map Prod.snd with
    | none => .error ("param references non-string")
    | some s =>
      match s with
      | .Type0U32 n =>
        if n < 0x10000000 then .ok ((", =").toList ++ natToDec n)
        else .ok ((", =").toList ++ natToHexUpper n ++ ['h'])
      | .Type1U32 n =>
        if n < 0x10000000 then .ok ((", @=").toList ++ natToDec n)
        else .ok ((", @=").toList ++ natToHexUpper n ++ ['h'])
      | .String sb =>
        .ok ((", \"").toList ++ escapeStringChars (decodeHex sb) ++ ['"'])
  | .GlobalDataPointer addr => .ok ((", [global_data+").toList ++ natToDec addr ++ [']'])

/-- Render one line of disassembly for an action. -/
def renderAction (decodeHex : List ℕ → List Char) (mnemonics : Mnemonics)
    (address junk : Bool) (acts : List (ℕ × Action)) (maxlabel : ℕ)
    (addr : ℕ) (act : Action) : DResult (List Char) := do
  let addrPart := if address then natToHex06 addr ++ [' '] else []
  let labelPart :=
    match act.label junk with
    | some l =>
      let ls := label_to_string l
      List.replicate (maxlabel - ls.length) ' ' ++ ls ++ (": ").toList
    | none => List.replicate maxlabel ' ' ++ ("  ").toList
  let opPart ←
    if act.call then
      match lookupAction acts act.opcode with
      | none => .error ("bruh")
      | some t =>
        match t.label junk with
        | none => .error ("bruh2")
        | some l => .ok (("call ").toList ++ label_to_string l)
    else
      match getByRight mnemonics act.opcode with
      | some name => .ok name
      | none => .ok (("raw ").toList ++ natToHexUpper act.opcode)
  match scanData act.data with
  | .error m => .error m
  | .panic m => .panic m
  | .ok (dataPos, junkBytes) =>
    let parts ← act.params.mapM (renderParam decodeHex junk acts dataPos)
    let junkPart :=
      if junk ∧ ¬ junkBytes.isEmpty then (" ! ").toList ++ base64Encode junkBytes else []
    return addrPart ++ labelPart ++ opPart ++ parts.flatten ++ junkPart ++ ['\n']

/-- Embedding of `disasm::main` (modulo file I/O): decode the binary,
infer and attach autolabels, and emit the complete text form. -/
def disasm_main (decodeHex : List ℕ → List Char) (mnemonics : Mnemonics)
    (address junk : Bool) (file : List ℕ) : DResult (List Char) := do
  match from_bytes file with
  | .error m => .error m
  | .panic m => .panic m
  | .ok stcm2 =>
    let m ← buildAutolabels stcm2.actions
    let acts ← applyAutolabels stcm2.actions m
    match utf8Decode stcm2.tag with
    | none => .error ("nooooo")
    | some tagChars =>
      let tagStr := (tagChars.reverse.dropWhile (fun c => c = Char.ofNat 0)).reverse
      let header := (".tag \"").toList ++ tagStr ++ ("\"\n.global_data ").toList ++
        base64Encode stcm2.global_data ++ ("\n.code_start\n").toList
      let maxlabel :=
        max ((acts.filterMap (fun p => (p.2.label junk).map List.length)).foldr max 0) 14
      let chunks ← (chunk_actions acts).mapM (fun chunk => do
        let lines ← chunk.mapM (fun p =>
          renderAction decodeHex mnemonics address junk acts maxlabel p.1 p.2)
        return '\n' :: lines.flatten)
      return header ++ chunks.flatten

/-! ### The assembler (`asm.rs`): line parsing

Lines are lists of characters; byte strings are lists of naturals.
The text codec (`encoding_rs` encode) is again a black-box argument. -/

/-- The `INITIAL_ADDRESS` regex `^(?:[0-9A-F]{6})? +`: strip an optional
six-digit uppercase hex address and the following run of spaces. -/
def stripInitialAddress (l : List Char) : List Char :=
  match l with
  | a :: b :: c :: d :: e :: f :: rest =>
    if isHexUpperDigit a ∧ isHexUpperDigit b ∧ isHexUpperDigit c ∧ isHexUpperDigit d ∧
        isHexUpperDigit e ∧ isHexUpperDigit f ∧ rest.head? = some ' ' then
      rest.dropWhile (fun ch => ch = ' ')
    else if a = ' ' then l.dropWhile (fun ch => ch = ' ') else l
  | _ => if l.head? = some ' ' then l.dropWhile (fun ch => ch = ' ') else l

/-- Embedding of `decode_label`: replace every `\xHH` (lowercase hex)
with the literal byte; all other characters pass through the UTF-8
byte representation of the label string.  After a backslash that does
not open a valid escape, the regex resumes searching at the following
character; since a match can only start at a backslash and the next
character is the literal `x`, emitting both characters and resuming
two positions later is equivalent and keeps the recursion
structural. -/
def decode_label : List Char → List ℕ
  | '\\' :: 'x' :: h1 :: h2 :: rest =>
    match hexValLower h1, hexValLower h2 with
    | some d1, some d2 => (d1 * 16 + d2) :: decode_label rest
    | _, _ => utf8EncodeChar '\\' ++ utf8EncodeChar 'x' ++ decode_label (h1 :: h2 :: rest)
  | c :: rest => utf8EncodeChar c ++ decode_label rest
  | [] => []

/-- Whether a character may appear unescaped in a label
(the class `[!-\[\]-~]` of the `LABEL` regex). -/
def labelCharB (c : Char) : Bool := ('!' ≤ c ∧ c ≤ '[') ∨ (']' ≤ c ∧ c ≤ '~')

/-- One token of the `LABEL` regex: either a `\xHH` escape or a single
legal label character; tokenisation is unambiguous since a backslash is
not a legal label character. -/
def tryItem (l : List Char) : Option (List Char × List Char) :=
  match l with
  | '\\' :: 'x' :: h1 :: h2 :: rest =>
    if (hexValLower h1).isSome ∧ (hexValLower h2).isSome then some (['\\', 'x', h1, h2], rest)
    else none
  | c :: rest => if labelCharB c then some ([c], rest) else none
  | [] => none

/-- Greedy-with-backtracking continuation of the `LABEL` regex after at
least one token: match as many further tokens as possible, then the
terminating `": "`; on failure retreat one token boundary at a time. -/
def labelTailF : ℕ → List Char → Option (List Char × List Char)
  | 0, _ => none
  | fuel + 1, l =>
    match tryItem l with
    | some (item, rest) =>
      match labelTailF fuel rest with
      | some (lab, r) => some (item ++ lab, r)
      | none => if l.take 2 = [':', ' '] then some ([], l.drop 2) else none
    | none => if l.take 2 = [':', ' '] then some ([], l.drop 2) else none

/-- The continuation with its fuel instantiated: every token consumes at
least one character, so `length + 1` iterations always suffice. -/
def labelTail (l : List Char) : Option (List Char × List Char) := labelTailF (l.length + 1) l

/-- The anchored `LABEL` regex `^((?:[!-\[\]-~]|\\x[0-9a-f]{2})+): `:
returns the captured label text and the remainder after the `": "`. -/
def labelMatch (l : List Char) : Option (List Char × List Char) :=
  match tryItem l with
  | none => none
  | some (item, rest) =>
    match labelTail rest with
    | some (lab, r) => some (item ++ lab, r)
    | none => if rest.take 2 = [':', ' '] then some (item, rest.drop 2) else none

/-- The quote-scanning loop of `split`: find the index one past the
closing quote, honouring `\"`, `\\` (skip 1) and `\x` (skip 3) escapes,
and failing on any other escape. -/
def scanQuote (l : List Char) (idx skip : ℕ) : DResult (Option ℕ) :=
  match l with
  | [] => .ok none
  | ch :: rest =>
    if skip > 0 then scanQuote rest (idx + 1) (skip - 1)
    else if ch = '"' then .ok (some (idx + 1))
    else if ch = '\\' then
      match rest.head? with
      | some peek =>
        if peek = '"' ∨ peek = '\\' then scanQuote rest (idx + 1) 1
        else if peek = 'x' then scanQuote rest (idx + 1) 3
        else .error ("unsupported escape")
      | none => scanQuote rest (idx + 1) skip
    else scanQuote rest (idx + 1) skip

/-- Model of `str::split_once(',')`. -/
def splitOnceComma : List Char → Option (List Char × List Char)
  | [] => none
  | c :: rest =>
    if c = ',' then some ([], rest)
    else (splitOnceComma rest).map (fun q => (c :: q.1, q.2))

/-- Model of `str::find(" ! ")`: split the input at the first occurrence
of the junk separator, returning the text before it and the remainder
starting with the separator. -/
def breakSub : List Char → Option (List Char × List Char)
  | [] => none
  | c :: rest =>
    if c = ' ' ∧ rest.take 2 = ['!', ' '] then some ([], c :: rest)
    else (breakSub rest).map (fun q => (c :: q.1, q.2))

/-- Embedding of `split` from `asm.rs`: tokenize an instruction line into
comma-separated parts (with quoted strings scanned for escapes) and an
optional trailing junk payload after `" ! "`. -/
def splitPartsF : ℕ → List Char → List (List Char) →
    DResult (List (List Char) × Option (List Char))
  | 0, _, _ => .panic ("fuel exhausted")
  | fuel + 1, instr, parts =>
    let s := instr.dropWhile (fun c => isAsciiWs c)
    if s.take 2 = ['!', ' '] then .ok (parts, some (s.drop 2))
    else if s.isEmpty then .ok (parts, none)
    else if s.head? = some '"' then
      match scanQuote (s.drop 1) 1 0 with
      | .error m => .error m
      | .panic m => .panic m
      | .ok none => .error ("bad quotes")
      | .ok (some e) =>
        splitPartsF fuel (if (s.drop e).take 2 = [',', ' '] then (s.drop e).drop 2 else s.drop e)
          (parts ++ [s.take e])
    else
      match splitOnceComma s with
      | some (head, tail) => splitPartsF fuel tail (parts ++ [head])
      | none =>
        match breakSub s with
        | some (before, after) => splitPartsF fuel after (parts ++ [before])
        | none => splitPartsF fuel [] (parts ++ [s])

/-- The tokenizer with its fuel instantiated: every iteration strictly
shortens the remaining input (a quoted part spans at least two
characters, a comma is consumed, a junk separator is preceded by at
least one non-space character, and the final part consumes
everything), so `length + 2` iterations always suffice. -/
def split_parts (instr : List Char) (parts : List (List Char)) :
    DResult (List (List Char) × Option (List Char)) :=
  splitPartsF (instr.length + 2) instr parts

/-! ### The assembler (`asm.rs`): the data-pool encoders and the line loop -/

/-- Embedding of `encode_bytestring`: an aligned cell with an explicit
type word. -/
def encode_bytestring (type_ : ℕ) (inner : List ℕ) (buffer : List ℕ) : DResult (List ℕ) :=
  if inner.length % 4 ≠ 0 then .error ("must be divisible by 4") else
  if inner.length / 4 ≥ 2 ^ 32 then .error ("qlen overflow") else
  if inner.length ≥ 2 ^ 32 then .error ("length overflow") else
  .ok (buffer ++ toLE4 type_ ++ toLE4 (inner.length / 4) ++ toLE4 1 ++ toLE4 inner.length ++ inner)

/-- The `unsub_wellformed` replacement of `encode_string`: `\xHH`
(lowercase hex) becomes the character with that code, `\"` and `\\`
become the quoted character; anything else is left alone.  As in
`decode_label`, after a backslash that opens no escape the search
resumes at the following literal `x`, which cannot start a match, so
the recursion passes both characters through and stays structural. -/
def unsub_wellformed : List Char → List Char
  | '\\' :: 'x' :: h1 :: h2 :: rest =>
    match hexValLower h1, hexValLower h2 with
    | some d1, some d2 => Char.ofNat (d1 * 16 + d2) :: unsub_wellformed rest
    | _, _ => '\\' :: 'x' :: unsub_wellformed (h1 :: h2 :: rest)
  | '\\' :: '"' :: rest => '"' :: unsub_wellformed rest
  | '\\' :: '\\' :: rest => '\\' :: unsub_wellformed rest
  | c :: rest => c :: unsub_wellformed rest
  | [] => []

/-- Find the first `\XHH` (malformed-byte) escape: returns the segment
before it, the byte value, and the remainder after the escape.  A match
can only start at a backslash, never at the literal `X` following an
incomplete escape, so the recursion may skip both characters. -/
def findMalformed : List Char → Option (List Char × ℕ × List Char)
  | '\\' :: 'X' :: h1 :: h2 :: rest =>
    match hexValLower h1, hexValLower h2 with
    | some d1, some d2 => some ([], d1 * 16 + d2, rest)
    | _, _ =>
      (findMalformed (h1 :: h2 :: rest)).map (fun q => ('\\' :: 'X' :: q.1, q.2.1, q.2.2))
  | c :: rest => (findMalformed rest).map (fun q => (c :: q.1, q.2.1, q.2.2))
  | [] => none

/-- The piece loop of `encode_string`: well-formed segments go through
`unsub_wellformed` and the text codec `enc`; each `\XHH` escape
contributes its raw byte. -/
def encodeStringBytesF (enc : List Char → List ℕ) : ℕ → List Char → List ℕ
  | 0, _ => []
  | fuel + 1, inner =>
    if inner.isEmpty then []
    else
      match findMalformed inner with
      | none => enc (unsub_wellformed inner)
      | some (seg, b, rest) =>
        (if seg.isEmpty then [] else enc (unsub_wellformed seg)) ++
          b :: encodeStringBytesF enc fuel rest

/-- The piece loop with its fuel instantiated: each malformed escape
consumes four characters of the input, so `length + 1` iterations
always suffice. -/
def encode_string_bytes (enc : List Char → List ℕ) (inner : List Char) : List ℕ :=
  encodeStringBytesF enc (inner.length + 1) inner

/-- Embedding of `encode_string`: encode the unescaped text, then append
the cell with 1–4 zero bytes of padding up to the next multiple of 4. -/
def encode_string (enc : List Char → List ℕ) (inner : List Char) (buffer : List ℕ) :
    DResult (List ℕ) :=
  let bytes := encode_string_bytes enc inner
  let nzero := 4 - bytes.length % 4
  if bytes.length + nzero ≥ 2 ^ 32 then .error ("length overflow") else
  .ok (buffer ++ toLE4 0 ++ toLE4 ((bytes.length + nzero) / 4) ++ toLE4 1 ++
    toLE4 (bytes.length + nzero) ++ bytes ++ List.replicate nzero 0)

/-- The assembly-time pending-reference table (`IndexMap`): label bytes
to optional resolved action index, in insertion order. -/
abbrev PTable := List (List ℕ × Option ℕ)

/-- `IndexMap::insert`: overwrite in place or append. -/
def tableInsert (t : PTable) (k : List ℕ) (v : Option ℕ) : PTable :=
  match t with
  | [] => [(k, v)]
  | (k', v') :: rest => if k' = k then (k, v) :: rest else (k', v') :: tableInsert rest k v

/-- Index of a key in the table, if present. -/
def tableIndexOf (t : PTable) (k : List ℕ) : Option ℕ := t.findIdx? (fun p => p.1 = k)

/-- `IndexMap::entry(k)` followed by `index()` and `or_default()`: the
entry's insertion index, inserting `none` if vacant. -/
def tableEntryOrDefault (t : PTable) (k : List ℕ) : ℕ × PTable :=
  match tableIndexOf t k with
  | some i => (i, t)
  | none => (t.length, t ++ [(k, none)])

/-- Parse one operand token of an instruction line, growing the action's
data pool and the pending table as needed. -/
def processParam (enc : List Char → List ℕ) (table : PTable) (data : List ℕ)
    (param : List Char) : DResult (Parameter × List ℕ × PTable) :=
  if param.head? = some '"' then
    let s := param.drop 1
    if s.getLast? ≠ some '"' then .error ("no ending quote") else
    if data.length ≥ 2 ^ 32 then .error ("pointer overflow") else
    match encode_string enc s.dropLast data with
    | .error m => .error m
    | .panic m => .panic m
    | .ok data' => .ok (.DataPointer data.length, data', table)
  else if param.head? = some '=' ∨ param.head? = some '@' then
    let lit0 := param.drop 1
    let type_ := if lit0.head? = some '=' then 1 else 0
    let lit1 := if lit0.head? = some '=' then lit0.drop 1 else lit0
    let v? := if lit1.getLast? = some 'h' then parseU32Hex lit1.dropLast else parseU32Dec lit1
    match v? with
    | none => .error ("bad integer literal")
    | some v =>
      if data.length ≥ 2 ^ 32 then .error ("pointer overflow") else
      match encode_bytestring type_ (toLE4 v) data with
      | .error m => .error m
      | .panic m => .panic m
      | .ok data' => .ok (.DataPointer data.length, data', table)
  else if param.head? = some '[' then
    let inner := param.drop 1
    if inner.getLast? ≠ some ']' then .error ("no matching bracket") else
    let inner := inner.dropLast
    if ("global_data+").toList.isPrefixOf inner then
      match parseU32Dec (inner.drop 12) with
      | none => .error ("bad global data offset")
      | some v => .ok (.GlobalDataPointer v, data, table)
    else
      let ep := tableEntryOrDefault table (decode_label inner)
      if ep.1 ≥ 2 ^ 32 then .error ("index overflow") else
      .ok (.ActionRef (compl32 ep.1), data, ep.2)
  else
    match parseU32Hex param with
    | none => .error ("bad value")
    | some v => .ok (.Value v, data, table)

/-- Parse the operand tokens of a line in order. -/
def processParams (enc : List Char → List ℕ) (table : PTable) (data : List ℕ) :
    List (List Char) → DResult (List Parameter × List ℕ × PTable)
  | [] => .ok ([], data, table)
  | p :: rest =>
    match processParam enc table data p with
    | .error m => .error m
    | .panic m => .panic m
    | .ok (param, data', table') =>
      match processParams enc table' data' rest with
      | .error m => .error m
      | .panic m => .panic m
      | .ok (ps, data'', table'') => .ok (param :: ps, data'', table'')

/-- Parse the opcode token: `raw HEX`, a known mnemonic, or `call LABEL`
(which embeds the complemented pending-table index as a sentinel). -/
def parseOpcode (mnemonics : Mnemonics) (table : PTable) (op : List Char) :
    DResult (Bool × ℕ × PTable) :=
  if ("raw ").toList.isPrefixOf op then
    match parseU32Hex (op.drop 4) with
    | none => .error ("bad raw opcode")
    | some v => .ok (false, v, table)
  else
    match getByLeft mnemonics op with
    | some opc => .ok (false, opc, table)
    | none =>
      if ("call ").toList.isPrefixOf op then
        let ep := tableEntryOrDefault table (decode_label (op.drop 5))
        if ep.1 ≥ 2 ^ 32 then .error ("index overflow") else
        .ok (true, compl32 ep.1, ep.2)
      else .error ("invalid op")

/-- Assembly parse state: the actions in index space and the pending
table. -/
structure PState where
  actions : List Action
  table : PTable
deriving DecidableEq, Repr

/-- UTF-8 bytes of `local_`. -/
def localBytes : List ℕ := utf8Encode ("local_").toList

/-- UTF-8 bytes of `fn_`. -/
def fnBytes : List ℕ := utf8Encode ("fn_").toList

/-- Process one instruction line of the assembly source: strip an
optional label definition (inserting it into the pending table with the
current action count), split the remainder, parse the opcode, decode
the junk payload, parse the operands, and append the new action. -/
def processLine (enc : List Char → List ℕ) (mnemonics : Mnemonics) (st : PState)
    (line : List Char) : DResult PState :=
  if line.isEmpty then .ok st
  else
  if st.actions.length ≥ 2 ^ 32 then .error ("count overflow") else
  let lm := labelMatch line
  let instr := match lm with | some (_, rest) => rest | none => line
  let exportLbl := match lm with
    | some (lab, _) =>
      let lb := decode_label lab
      if localBytes.isPrefixOf lb ∨ fnBytes.isPrefixOf lb then none else some lb
    | none => none
  let table := match lm with
    | some (lab, _) => tableInsert st.table (decode_label lab) (some st.actions.length)
    | none => st.table
  match split_parts instr [] with
  | .error m => .error m
  | .panic m => .panic m
  | .ok (parts, junkOpt) =>
    match parts with
    | [] => .panic ("index out of bounds")
    | op :: rest =>
      match parseOpcode mnemonics table op with
      | .error m => .error m
      | .panic m => .panic m
      | .ok (call, opcode, table) =>
        match base64Decode (junkOpt.getD []) with
        | none => .error ("bad junk base64")
        | some data0 =>
          match processParams enc table data0 rest with
          | .error m => .error m
          | .panic m => .panic m
          | .ok (params, data, table) =>
            .ok { actions := st.actions ++
                    [{ export_ := exportLbl, call := call, opcode := opcode,
                       params := params, data := data }],
                  table := table }

/-- Process every instruction line in order. -/
def processLines (enc : List Char → List ℕ) (mnemonics : Mnemonics) :
    List (List Char) → PState → DResult PState
  | [], st => .ok st
  | l :: rest, st =>
    match processLine enc mnemonics st l with
    | .error m => .error m
    | .panic m => .panic m
    | .ok st' => processLines enc mnemonics rest st'


/-! ### The assembler (`asm.rs`): resolution, layout and emission -/

/-- Resolve one operand still carrying a sentinel: look the complemented
index up in the pending table and substitute the recorded action
index. -/
def resolveParam (table : PTable) (p : Parameter) : DResult Parameter :=
  match p with
  | .ActionRef ptr =>
    match table.get? (compl32 ptr) with
    | none => .error ("wow this shouldn't happen2")
    | some (_, none) => .error ("never encountered this label")
    | some (_, some addr) => .ok (.ActionRef addr)
  | p => .ok p

def resolveParams (table : PTable) : List Parameter → DResult (List Parameter)
  | [] => .ok []
  | p :: rest =>
    match resolveParam table p with
    | .error m => .error m
    | .panic m => .panic m
    | .ok p' =>
      match resolveParams table rest with
      | .error m => .error m
      | .panic m => .panic m
      | .ok ps => .ok (p' :: ps)

/-- Resolve an action's call opcode and operands from sentinel space into
action-index space (the first loop after parsing). -/
def resolveAction (table : PTable) (act : Action) : DResult Action :=
  match (if act.call then
      match table.get? (compl32 act.opcode) with
      | none => .error ("wow this shouldn't happen1")
      | some (_, none) => .error ("never encountered this label1")
      | some (_, some addr) => .ok addr
    else .ok act.opcode : DResult ℕ) with
  | .error m => .error m
  | .panic m => .panic m
  | .ok opcode =>
    match resolveParams table act.params with
    | .error m => .error m
    | .panic m => .panic m
    | .ok params => .ok { act with opcode := opcode, params := params }

def resolveActions (table : PTable) : List Action → DResult (List Action)
  | [] => .ok []
  | a :: rest =>
    match resolveAction table a with
    | .error m => .error m
    | .panic m => .panic m
    | .ok a' =>
      match resolveActions table rest with
      | .error m => .error m
      | .panic m => .panic m
      | .ok as_ => .ok (a' :: as_)

/-- The rename table: the prefix sums of the action byte lengths, each
checked against the `u32` range. -/
def buildRenames (counter : ℕ) : List Action → DResult (List ℕ)
  | [] => .ok []
  | a :: rest =>
    if counter ≥ 2 ^ 32 then .error ("rename overflow") else
    match buildRenames (counter + a.len) rest with
    | .error m => .error m
    | .panic m => .panic m
    | .ok rs => .ok (counter :: rs)

/-- Rewrite one operand from index space to byte-offset space; an index
outside the rename table is the `renames[...]` panic. -/
def renameParam (renames : List ℕ) (p : Parameter) : DResult Parameter :=
  match p with
  | .ActionRef ptr =>
    match renames.get? ptr with
    | none => .panic ("index out of bounds")
    | some v => .ok (.ActionRef v)
  | p => .ok p

def renameParams (renames : List ℕ) : List Parameter → DResult (List Parameter)
  | [] => .ok []
  | p :: rest =>
    match renameParam renames p with
    | .error m => .error m
    | .panic m => .panic m
    | .ok p' =>
      match renameParams renames rest with
      | .error m => .error m
      | .panic m => .panic m
      | .ok ps => .ok (p' :: ps)

/-- Rewrite one action into byte-offset space, pairing it with its own
byte offset relative to the code start. -/
def renameAction (renames : List ℕ) (i : ℕ) (act : Action) : DResult (ℕ × Action) :=
  match renames.get? i with
  | none => .panic ("index out of bounds")
  | some pos =>
    match (if act.call then
        match renames.get? act.opcode with
        | none => .panic ("index out of bounds")
        | some v => .ok v
      else .ok act.opcode : DResult ℕ) with
    | .error m => .error m
    | .panic m => .panic m
    | .ok opcode =>
      match renameParams renames act.params with
      | .error m => .error m
      | .panic m => .panic m
      | .ok params => .ok (pos, { act with opcode := opcode, params := params })

def renameActions (renames : List ℕ) (i : ℕ) : List Action → DResult (List (ℕ × Action))
  | [] => .ok []
  | a :: rest =>
    match renameAction renames i a with
    | .error m => .error m
    | .panic m => .panic m
    | .ok pa =>
      match renameActions renames (i + 1) rest with
      | .error m => .error m
      | .panic m => .panic m
      | .ok ps => .ok (pa :: ps)

/-- Overwrite four bytes at `p` with the little-endian encoding of `n`
(a `put_u32_le` into an existing buffer region). -/
def setLE32 (p n : ℕ) (l : List ℕ) : List ℕ :=
  (((l.set p (n % 256)).set (p + 1) (n / 256 % 256)).set (p + 2) (n / 65536 % 256)).set
    (p + 3) (n / 16777216 % 256)

/-- Emit the 12 bytes of one operand. -/
def emitParam (filler code_base data_base : ℕ) (p : Parameter) : DResult (List ℕ) :=
  match p with
  | .Value v => .ok (toLE4 v ++ toLE4 filler ++ toLE4 filler)
  | .GlobalDataPointer ptr =>
    if GLOBAL_DATA_OFFSET ≥ 2 ^ 32 then .error ("offset overflow") else
    .ok (toLE4 (GLOBAL_DATA_OFFSET + ptr) ++ toLE4 filler ++ toLE4 filler)
  | .DataPointer ptr =>
    if data_base + ptr ≥ 2 ^ 32 then .error ("data pointer overflow") else
    .ok (toLE4 (data_base + ptr) ++ toLE4 filler ++ toLE4 filler)
  | .ActionRef ptr =>
    if code_base + ptr ≥ 2 ^ 32 then .error ("action ref overflow") else
    .ok (toLE4 0xffffff41 ++ toLE4 (code_base + ptr) ++ toLE4 filler)

def emitParams (filler code_base data_base : ℕ) : List Parameter → DResult (List ℕ)
  | [] => .ok []
  | p :: rest =>
    match emitParam filler code_base data_base p with
    | .error m => .error m
    | .panic m => .panic m
    | .ok bs =>
      match emitParams filler code_base data_base rest with
      | .error m => .error m
      | .panic m => .panic m
      | .ok bss => .ok (bs ++ bss)

/-- Emit one action record: position check, export registration, the
four header words, the operands, and the data blob. -/
def emitAction (filler code_base : ℕ) (out : List ℕ) (exports : List (List ℕ × ℕ))
    (pos : ℕ) (act : Action) : DResult (List ℕ × List (List ℕ × ℕ)) :=
  if out.length ≠ code_base + pos then .error ("emit position mismatch") else
  let exports := match act.export_ with
    | some e => exports ++ [(e, out.length)]
    | none => exports
  match (if act.call then
      (if code_base + act.opcode ≥ 2 ^ 32 then .error ("call target overflow")
       else .ok (code_base + act.opcode))
    else .ok act.opcode : DResult ℕ) with
  | .error m => .error m
  | .panic m => .panic m
  | .ok opcodeWord =>
    if act.params.length ≥ 2 ^ 32 then .error ("params overflow") else
    if act.len ≥ 2 ^ 32 then .error ("record length overflow") else
    let out := out ++ toLE4 (if act.call then 1 else 0) ++ toLE4 opcodeWord ++
      toLE4 act.params.length ++ toLE4 act.len
    match emitParams filler code_base (out.length + 12 * act.params.length) act.params with
    | .error m => .error m
    | .panic m => .panic m
    | .ok pbytes => .ok (out ++ pbytes ++ act.data, exports)

def emitActions (filler code_base : ℕ) (out : List ℕ) (exports : List (List ℕ × ℕ)) :
    List (ℕ × Action) → DResult (List ℕ × List (List ℕ × ℕ))
  | [] => .ok (out, exports)
  | (pos, act) :: rest =>
    match emitAction filler code_base out exports pos act with
    | .error m => .error m
    | .panic m => .panic m
    | .ok (out', exports') => emitActions filler code_base out' exports' rest

/-- Emit the export records: a zero word, the 32-byte NUL-padded name,
and the action's absolute address; a name longer than 32 bytes is the
`put_bytes` underflow panic. -/
def emitExports (out : List ℕ) : List (List ℕ × ℕ) → DResult (List ℕ)
  | [] => .ok out
  | (name, addr) :: rest =>
    if name.length > 32 then .panic ("put_bytes underflow") else
    if addr ≥ 2 ^ 32 then .error ("export address overflow") else
    emitExports (out ++ toLE4 0 ++ name ++ List.replicate (32 - name.length) 0 ++ toLE4 addr) rest

/-- Build the whole file up to the collection-link metadata patch: header
and tag, the zeroed metadata block, the three magic sections, the
action stream, the export table, and the metadata back-patches. -/
def emitCore (tag global_data : List ℕ) (filler : ℕ) (pairs : List (ℕ × Action)) :
    DResult (List ℕ) :=
  if tag.length > STCM2_TAG_LENGTH then .panic ("put_bytes underflow") else
  let out := STCM2_MAGIC ++ tag ++ List.replicate (STCM2_TAG_LENGTH - tag.length) 0 ++
    List.replicate 48 0 ++ GLOBAL_DATA_MAGIC
  if out.length ≠ GLOBAL_DATA_OFFSET then .error ("global data offset mismatch") else
  let out := out ++ global_data ++ CODE_START_MAGIC
  match emitActions filler out.length out [] pairs with
  | .error m => .error m
  | .panic m => .panic m
  | .ok (out, exports) =>
    let out := out ++ EXPORT_DATA_MAGIC
    if out.length ≥ 2 ^ 32 then .error ("export address overflow") else
    if exports.length ≥ 2 ^ 32 then .error ("export count overflow") else
    let out := setLE32 36 exports.length (setLE32 32 out.length out)
    match emitExports out exports with
    | .error m => .error m
    | .panic m => .panic m
    | .ok out =>
      let out := out ++ COLLECTION_LINK_MAGIC
      if out.length ≥ 2 ^ 32 then .error ("collection address overflow") else
      .ok (setLE32 44 out.length (setLE32 40 2 out))

/-- Append the collection-link trailer and back-patch the total file
length: a zero word, then 60 zero bytes whose first four are overwritten
with the final length. -/
def finalizeFile (core : List ℕ) : DResult (List ℕ) :=
  let pre := core ++ toLE4 0
  let full := pre ++ List.replicate 60 0
  if full.length ≥ 2 ^ 32 then .error ("file length overflow") else
  .ok (setLE32 pre.length full.length full)

/-- The result of one assembly run: the final pending table, the parsed
actions in index space, and the output file bytes. -/
structure AsmResult where
  table : PTable
  actions : List Action
  out : List ℕ
deriving DecidableEq, Repr

/-- Embedding of `asm::main` (modulo file I/O): strip address
annotations, check the `.tag`, `.global_data` and `.code_start` lines,
run the parsing loop, resolve sentinels, rename into byte-offset space,
and emit the binary. -/
def asm_run (enc : List Char → List ℕ) (mnemonics : Mnemonics)
    (rawLines : List (List Char)) : DResult AsmResult :=
  let lines := rawLines.map stripInitialAddress
  match lines.head? with
  | none => .error ("improper tag")
  | some tagLine =>
    if ¬ (isAsciiStr tagLine ∧ tagLine.length ≥ 7 ∧ (".tag \"").toList.isPrefixOf tagLine ∧
        tagLine.getLast? = some '"') then .error ("improper tag") else
    let tag := ((tagLine.map Char.toNat).drop 6).dropLast
    let filler := if tag.take 1 = [0x4C] then 0x40000000 else 0xff000000
    match lines.get? 1 with
    | none => .error ("improper global data")
    | some gdLine =>
      if ¬ (isAsciiStr gdLine ∧ (".global_data ").toList.isPrefixOf gdLine) then
        .error ("improper global data") else
      match base64Decode (gdLine.drop 13) with
      | none => .error ("bad global data base64")
      | some global_data =>
        if lines.get? 2 ≠ some (".code_start").toList then .error ("improper code start") else
        match processLines enc mnemonics (lines.drop 3) { actions := [], table := [] } with
        | .error m => .error m
        | .panic m => .panic m
        | .ok st =>
          match resolveActions st.table st.actions with
          | .error m => .error m
          | .panic m => .panic m
          | .ok racts =>
            match buildRenames 0 racts with
            | .error m => .error m
            | .panic m => .panic m
            | .ok renames =>
              match renameActions renames 0 racts with
              | .error m => .error m
              | .panic m => .panic m
              | .ok pairs =>
                match emitCore tag global_data filler pairs with
                | .error m => .error m
                | .panic m => .panic m
                | .ok core =>
                  match finalizeFile core with
                  | .error m => .error m
                  | .panic m => .panic m
                  | .ok out => .ok { table := st.table, actions := st.actions, out := out }

/-- The assembled file bytes of a run. -/
def asm_main (enc : List Char → List ℕ) (mnemonics : Mnemonics)
    (rawLines : List (List Char)) : DResult (List ℕ) :=
  match asm_run enc mnemonics rawLines with
  | .error m => .error m
  | .panic m => .panic m
  | .ok r => .ok r.out

/-- Split text at the first newline. -/
def splitOnceNL : List Char → Option (List Char × List Char)
  | [] => none
  | c :: rest =>
    if c = '\n' then some ([], rest)
    else (splitOnceNL rest).map (fun q => (c :: q.1, q.2))

/-- Strip one trailing carriage return (`BufRead::lines`). -/
def stripCR (l : List Char) : List Char := if l.getLast? = some '\x0d' then l.dropLast else l

/-- Model of `BufRead::lines`: split on newlines, strip a trailing
carriage return from each line, and drop a final empty remainder. -/
def linesOfF : ℕ → List Char → List (List Char)
  | 0, _ => []
  | fuel + 1, l =>
    match splitOnceNL l with
    | some (line, rest) => stripCR line :: linesOfF fuel rest
    | none => if l.isEmpty then [] else [stripCR l]

/-- `lines` with its fuel instantiated: each split consumes the newline,
so `length + 1` iterations always suffice. -/
def linesOf (l : List Char) : List (List Char) := linesOfF (l.length + 1) l


/-! ### Concrete example data

`exampleOut` is the byte file the assembler produces for the
specification's example program; the theorems below verify this
equality by kernel reduction, so the literal is trustworthy. -/

/-- The unused black-box codec for runs whose files contain no string
cells. -/
def noDecode : List ℕ → List Char := fun _ => []

/-- The example program of the specification, as source text. -/
def exampleText : List Char :=
  (".tag \"TEST\"\n.global_data \n.code_start\nfoo: call bar\nbar: return\n").toList

def exampleLines : List (List Char) := linesOf exampleText

/-- The bytes the assembler produces for the example program. -/
def exampleOut : List ℕ := [
  83, 84, 67, 77, 50, 84, 69, 83, 84, 0, 0, 0, 0, 0, 0, 0, 0, 0, 0, 0,
  0, 0, 0, 0, 0, 0, 0, 0, 0, 0, 0, 0, 148, 0, 0, 0, 2, 0, 0, 0,
  2, 0, 0, 0, 244, 0, 0, 0, 0, 0, 0, 0, 0, 0, 0, 0, 0, 0, 0, 0,
  0, 0, 0, 0, 0, 0, 0, 0, 0, 0, 0, 0, 0, 0, 0, 0, 0, 0, 0, 0,
  71, 76, 79, 66, 65, 76, 95, 68, 65, 84, 65, 0, 67, 79, 68, 69, 95, 83, 84, 65,
  82, 84, 95, 0, 1, 0, 0, 0, 120, 0, 0, 0, 0, 0, 0, 0, 16, 0, 0, 0,
  0, 0, 0, 0, 0, 0, 0, 0, 0, 0, 0, 0, 16, 0, 0, 0, 69, 88, 80, 79,
  82, 84, 95, 68, 65, 84, 65, 0, 0, 0, 0, 0, 102, 111, 111, 0, 0, 0, 0, 0,
  0, 0, 0, 0, 0, 0, 0, 0, 0, 0, 0, 0, 0, 0, 0, 0, 0, 0, 0, 0,
  0, 0, 0, 0, 104, 0, 0, 0, 0, 0, 0, 0, 98, 97, 114, 0, 0, 0, 0, 0,
  0, 0, 0, 0, 0, 0, 0, 0, 0, 0, 0, 0, 0, 0, 0, 0, 0, 0, 0, 0,
  0, 0, 0, 0, 120, 0, 0, 0, 67, 79, 76, 76, 69, 67, 84, 73, 79, 78, 95, 76,
  73, 78, 75, 0, 0, 0, 0, 0, 52, 1, 0, 0, 0, 0, 0, 0, 0, 0, 0, 0,
  0, 0, 0, 0, 0, 0, 0, 0, 0, 0, 0, 0, 0, 0, 0, 0, 0, 0, 0, 0,
  0, 0, 0, 0, 0, 0, 0, 0, 0, 0, 0, 0, 0, 0, 0, 0, 0, 0, 0, 0,
  0, 0, 0, 0, 0, 0, 0, 0]

/-- The disassembly text of `exampleOut` with junk emission on and
addresses off. -/
def exampleDisasm : List Char :=
  (".tag \"TEST\"\n.global_data \n.code_start\n\n           foo: call bar\n           bar: return\n").toList

/-- `exampleOut` with its final trailer byte changed to 7: still a valid
file for the decoder, which never reads the trailer bytes. -/
def exampleMutated : List ℕ := exampleOut.dropLast ++ [7]

/-- `exampleOut` with the first record's stored length field (the byte
at offset 116) changed to 8, smaller than the 16-byte record header. -/
def exampleCorrupt : List ℕ := exampleOut.take 116 ++ [8] ++ exampleOut.drop 117

/-- The data-pool cell of the specification's example: type 0, quad
length 1, payload `41 42 00 00`. -/
def exampleCell : List ℕ := [0, 0, 0, 0, 1, 0, 0, 0, 1, 0, 0, 0, 4, 0, 0, 0, 0x41, 0x42, 0, 0]

/-- A source file whose only code line is a label definition with no
instruction after it. -/
def labelOnlyLines : List (List Char) :=
  linesOf ((".tag \"TEST\"\n.global_data \n.code_start\nfoo: \n").toList)


/-- The full parse-phase result of assembling the example program. -/
def exampleRun : AsmResult :=
  { table := [([102, 111, 111], some 0), ([98, 97, 114], some 1)],
    actions := [
      { export_ := some [102, 111, 111], call := true, opcode := 4294967294, params := [], data := [] },
      { export_ := some [98, 97, 114], call := false, opcode := 0, params := [], data := [] }],
    out := exampleOut }

/-- Cost of a parsed action for the table-size bound: a label and a call
target may each add one pending-table entry, and each operand token may
add one more, while the emitted record always spans at least this many
bytes. -/
def costA (acts : List Action) : ℕ := (acts.map (fun a => 2 + a.params.length)).sum

/-- All labels of a chunk member list: each action's own address plus its
`ActionRef` targets. -/
def chunkLabels (ch : List (ℕ × Action)) : List ℕ :=
  (ch.map (fun p => labelsOfAct p.1 p.2)).flatten

/-- Total cost of the renamed action pairs (same measure as `costA`). -/
def costP (pairs : List (ℕ × Action)) : ℕ :=
  (pairs.map (fun q => 2 + q.2.params.length)).sum


/-! ## Theorems -/

/-- C2: decoding a 3-word operand follows the strict priority chain of
`Parameter::parse` — the exact `ActionRef` marker first, then the
owning action's data window, then the global-data window, then the
literal fallback, and an error for every other shape (stated for
non-wrapping windows). -/
theorem parse_priority_chain (w0 w1 w2 da dl gl : ℕ)
    (hda : da + dl < 2 ^ 32) (hgl : GLOBAL_DATA_OFFSET + gl < 2 ^ 32) :
    (w0 = 0xffffff41 ∧ isFillerWord w2 →
      Parameter.parse w0 w1 w2 da dl gl = .ok (.ActionRef w1)) ∧
    (¬ (w0 = 0xffffff41 ∧ isFillerWord w2) →
      isFillerWord w1 → isFillerWord w2 → da ≤ w0 → w0 < da + dl →
      Parameter.parse w0 w1 w2 da dl gl = .ok (.DataPointer (w0 - da))) ∧
    (¬ (w0 = 0xffffff41 ∧ isFillerWord w2) →
      isFillerWord w1 → isFillerWord w2 → ¬ (da ≤ w0 ∧ w0 < da + dl) →
      GLOBAL_DATA_OFFSET ≤ w0 → w0 < GLOBAL_DATA_OFFSET + gl →
      Parameter.parse w0 w1 w2 da dl gl = .ok (.GlobalDataPointer (w0 - GLOBAL_DATA_OFFSET))) ∧
    (¬ (w0 = 0xffffff41 ∧ isFillerWord w2) →
      isFillerWord w1 → isFillerWord w2 → ¬ (da ≤ w0 ∧ w0 < da + dl) →
      ¬ (GLOBAL_DATA_OFFSET ≤ w0 ∧ w0 < GLOBAL_DATA_OFFSET + gl) →
      Parameter.parse w0 w1 w2 da dl gl = .ok (.Value w0)) ∧
    (¬ (w0 = 0xffffff41 ∧ isFillerWord w2) → ¬ (isFillerWord w1 ∧ isFillerWord w2) →
      ∃ e, Parameter.parse w0 w1 w2 da dl gl = .error e) := by
  unfold Parameter.parse
  rw [Nat.mod_eq_of_lt hda, Nat.mod_eq_of_lt hgl]
  refine ⟨fun h => ?_, fun h1 h2 h3 h4 h5 => ?_, fun h1 h2 h3 h4 h5 h6 => ?_,
    fun h1 h2 h3 h4 h5 => ?_, fun h1 h2 => ?_⟩
  · rw [if_pos h]
  · rw [if_neg h1, if_pos ⟨h2, h3, h4, h5⟩]
  · rw [if_neg h1, if_neg (fun hc => h4 ⟨hc.2.2.1, hc.2.2.2⟩), if_pos ⟨h2, h3, h5, h6⟩]
  · rw [if_neg h1, if_neg (fun hc => h4 ⟨hc.2.2.1, hc.2.2.2⟩),
      if_neg (fun hc => h5 ⟨hc.2.2.1, hc.2.2.2⟩), if_pos ⟨h2, h3⟩]
  · rw [if_neg h1, if_neg (fun hc => h2 ⟨hc.1, hc.2.1⟩), if_neg (fun hc => h2 ⟨hc.1, hc.2.1⟩),
      if_neg h2]
    exact ⟨_, rfl⟩

/-- Witness for C2 at a concrete marker-shaped operand. -/
theorem parse_priority_chain_witness :
    Parameter.parse 0xffffff41 5 0x40000000 0 0 0 = .ok (.ActionRef 5) :=
  (parse_priority_chain 0xffffff41 5 0x40000000 0 0 0 (by decide) (by decide)).1 (by decide)

/-- C4 (amended): the cell with payload `41 42 00 00` decodes, under the
4-byte integer heuristic, to the type-0 integer `0x4241 = 16961` — not
to text — while encoding the string `AB` does reproduce exactly the
payload bytes `41 42 00 00`, with the minimal zero padding of at least
one byte (here two bytes). -/
theorem cell_ab_decode_encode :
    decode_string 0 exampleCell = .ok (.Type0U32 16961, []) ∧
    encode_string utf8Encode ("AB").toList [] =
      .ok [0, 0, 0, 0, 1, 0, 0, 0, 1, 0, 0, 0, 4, 0, 0, 0, 0x41, 0x42, 0, 0] :=
  ⟨rfl, rfl⟩

/-- Counterexample for C4: decoding that cell does not yield the text
`AB`; the integer heuristic intercepts it. -/
theorem cell_ab_not_text_cex :
    decode_string 0 exampleCell = .ok (.Type0U32 16961, []) ∧
    decode_string 0 exampleCell ≠ .ok (.String [0x41, 0x42], []) :=
  ⟨rfl, by decide⟩

/-- C1 (amended): on the assembler-canonical file of the example
program, assembling the disassembly (junk emission on, addresses off,
same default mnemonic table both ways) reproduces the file
byte-for-byte. -/
theorem roundtrip_canonical_example :
    disasm_main noDecode defaultMnemonics false true exampleOut = .ok exampleDisasm ∧
    asm_main utf8Encode defaultMnemonics (linesOf exampleDisasm) = .ok exampleOut :=
  ⟨rfl, rfl⟩

/-- Counterexample for C1: a valid file (the decoder accepts it) whose
final trailer byte is 7 disassembles to the same text, which assembles
back to the canonical bytes — so the round trip does not reproduce this
file. -/
theorem roundtrip_metadata_cex :
    (from_bytes exampleMutated).isOkB = true ∧
    disasm_main noDecode defaultMnemonics false true exampleMutated = .ok exampleDisasm ∧
    asm_main utf8Encode defaultMnemonics (linesOf exampleDisasm) = .ok exampleOut ∧
    exampleOut ≠ exampleMutated := by
  refine ⟨rfl, rfl, rfl, fun h => ?_⟩
  have h0 : exampleOut.getLast? = some 0 := rfl
  have h7 : exampleMutated.getLast? = some 7 := rfl
  rw [h] at h0
  rw [h0] at h7
  simp at h7

/-- C3 (amended): assembling the example program yields a file whose
action stream has exactly two 16-byte records at absolute offsets 104
and 120 (the code section starting at byte 104, so the second action
lies 16 bytes past the code start), with an empty global-data pool,
both actions exported as `foo` and `bar`, and the first record a call
whose stored target word is the absolute offset 120 = 104 + 16. -/
theorem example_assembly_layout :
    asm_main utf8Encode defaultMnemonics exampleLines = .ok exampleOut ∧
    from_bytes exampleOut = .ok
      { tag := [84, 69, 83, 84] ++ List.replicate 23 0,
        global_data := [],
        actions := [
          (104, { export_ := some ([102, 111, 111] ++ List.replicate 29 0), call := true,
                  opcode := 120, params := [], data := [] }),
          (120, { export_ := some ([98, 97, 114] ++ List.replicate 29 0), call := false,
                  opcode := 0, params := [], data := [] })] } ∧
    (exampleOut.drop 108).take 4 = toLE4 120 ∧
    (120 : ℕ) = 104 + 16 :=
  ⟨rfl, rfl, rfl, rfl⟩

/-- Counterexample for C3: the stored call-target word of the first
record (file bytes 108–111) is 120, the absolute file offset of the
second action, not 16. -/
theorem example_call_target_cex :
    asm_main utf8Encode defaultMnemonics exampleLines = .ok exampleOut ∧
    (exampleOut.drop 108).take 4 = toLE4 120 ∧
    (exampleOut.drop 108).take 4 ≠ toLE4 16 :=
  ⟨rfl, rfl, by decide⟩

/-- Counterexample for C7: corrupting the example file's first record
length to 8 (smaller than the 16-byte header) makes the decoder panic
in `split_to` via the wrapped subtraction — it does not return a
length-mismatch error. -/
theorem corrupt_length_panic_cex :
    (from_bytes exampleOut).isOkB = true ∧
    from_bytes exampleCorrupt = .panic ("split_to out of range") :=
  ⟨rfl, rfl⟩

/-- Counterexample for C8: the final four bytes of the produced file are
zero padding; the back-patched length lives 60 bytes before the end,
not in the final four bytes. -/
theorem final_bytes_not_length_cex :
    asm_main utf8Encode defaultMnemonics exampleLines = .ok exampleOut ∧
    exampleOut.length = 308 ∧
    exampleOut.drop 304 = [0, 0, 0, 0] ∧
    exampleOut.drop 304 ≠ toLE4 308 :=
  ⟨rfl, rfl, rfl, by decide⟩

/-- Counterexample for C9: a source file whose only code line is the
label-only definition `foo: ` makes the assembler panic indexing the
empty instruction split — it does not return normally. -/
theorem label_only_line_panic_cex :
    asm_run utf8Encode defaultMnemonics labelOnlyLines = .panic ("index out of bounds") :=
  rfl

/-- Overwriting four bytes right at the append boundary rewrites the head
of the second list. -/
theorem setLE32_append : ∀ (a b : List ℕ) (n : ℕ), 4 ≤ b.length →
    setLE32 a.length n (a ++ b) = a ++ (toLE4 n ++ b.drop 4) := by
  intro a b n h4
  match b with
  | b0 :: b1 :: b2 :: b3 :: b' =>
    have e : ∀ (k : ℕ) (x : ℕ) (c : List ℕ), (a ++ c).set (a.length + k) x = a ++ c.set k x := by
      intro k x c
      rw [List.set_append, if_neg (by omega), Nat.add_sub_cancel_left]
    have e0 : ∀ (x : ℕ) (c : List ℕ), (a ++ c).set a.length x = a ++ c.set 0 x := by
      intro x c
      have h := e 0 x c
      simpa using h
    simp only [setLE32, e0, e, toLE4]
    simp
  | [] => simp at h4
  | [b0] => simp at h4
  | [b0, b1] => simp at h4
  | [b0, b1, b2] => simp at h4

/-- Shape of a finalized file: a 64-byte trailer, the total length
back-patched 60 bytes before the end, and the last four bytes zero. -/
theorem finalizeFile_spec : ∀ (core out : List ℕ), finalizeFile core = .ok out →
    out.length = core.length + 64 ∧
    (out.drop (out.length - 60)).take 4 = toLE4 out.length ∧
    out.drop (out.length - 4) = [0, 0, 0, 0] := by
  intro core out h
  simp only [finalizeFile] at h
  split at h
  · simp at h
  · simp only [DResult.ok.injEq] at h
    rw [setLE32_append _ _ _ (by simp)] at h
    have hlen : ((core ++ toLE4 0) ++ List.replicate 60 0).length = core.length + 64 := by
      simp [toLE4]
    rw [hlen] at h
    have hdrop : (List.replicate 60 (0 : ℕ)).drop 4 = List.replicate 56 0 := by simp
    rw [hdrop] at h
    have holen : out.length = core.length + 64 := by
      rw [← h]
      simp [toLE4]
    refine ⟨holen, ?_, ?_⟩
    · rw [holen, ← h]
      have h60 : core.length + 64 - 60 = (core ++ toLE4 0).length := by simp [toLE4]
      rw [h60, List.drop_left]
      exact List.take_left' (by simp [toLE4])
    · have hsplit : (core ++ toLE4 0) ++ (toLE4 (core.length + 64) ++ List.replicate 56 0) =
          (((core ++ toLE4 0) ++ toLE4 (core.length + 64)) ++ List.replicate 52 0) ++
            List.replicate 4 0 := by
        have h56 : List.replicate 56 (0 : ℕ) = List.replicate 52 0 ++ List.replicate 4 0 := by
          decide
        rw [h56]
        simp [List.append_assoc]
      rw [holen, ← h, hsplit]
      have h4' : core.length + 64 - 4 =
          ((((core ++ toLE4 0) ++ toLE4 (core.length + 64)) ++ List.replicate 52 0)).length := by
        simp [toLE4]
      rw [h4', List.drop_left]
      rfl

/-- C8 (amended): every successful assembly run back-patches the total
encoded file length, as a little-endian u32, at the start of the 60-byte
collection-link trailer — 60 bytes before the end of the file — while
the final four bytes of the file are zero padding, not the length. -/
theorem file_length_backpatched (enc : List Char → List ℕ) (mn : Mnemonics)
    (rawLines : List (List Char)) (r : AsmResult)
    (h : asm_run enc mn rawLines = .ok r) :
    64 ≤ r.out.length ∧
    (r.out.drop (r.out.length - 60)).take 4 = toLE4 r.out.length ∧
    r.out.drop (r.out.length - 4) = [0, 0, 0, 0] := by
  simp only [asm_run] at h
  repeat (split at h <;> try (solve | simp at h))
  simp only [DResult.ok.injEq] at h
  obtain ⟨h1, h2, h3⟩ := finalizeFile_spec _ _ (by assumption)
  rw [← h]
  dsimp only
  exact ⟨by omega, h2, h3⟩

/-- Witness for C8 at the example program. -/
theorem file_length_backpatched_witness :
    64 ≤ exampleRun.out.length ∧
    (exampleRun.out.drop (exampleRun.out.length - 60)).take 4 = toLE4 exampleRun.out.length ∧
    exampleRun.out.drop (exampleRun.out.length - 4) = [0, 0, 0, 0] :=
  file_length_backpatched utf8Encode defaultMnemonics exampleLines exampleRun rfl

/-- The instruction tokenizer on pure whitespace returns the parts
accumulated so far and no junk payload. -/
theorem splitPartsF_ws_empty : ∀ (fuel : ℕ) (instr : List Char) (parts : List (List Char)),
    instr.dropWhile (fun c => isAsciiWs c) = [] →
    splitPartsF (fuel + 1) instr parts = .ok (parts, none) := by
  intro fuel instr parts h
  simp [splitPartsF, h]

/-- C9 (amended): a non-empty line consisting solely of a label
definition (the label regex matches and only whitespace follows) makes
the assembler panic indexing the empty token split — the label-only
line is not handled gracefully. -/
theorem label_only_line_panics (enc : List Char → List ℕ) (mn : Mnemonics) (st : PState)
    (line lab rest : List Char) (hne : line ≠ [])
    (hcnt : st.actions.length < 2 ^ 32)
    (hlm : labelMatch line = some (lab, rest))
    (hws : rest.dropWhile (fun c => isAsciiWs c) = []) :
    processLine enc mn st line = .panic ("index out of bounds") := by
  have hsp : split_parts rest [] = .ok ([], none) := by
    have h1 : split_parts rest [] = splitPartsF (rest.length + 1 + 1) rest [] := rfl
    rw [h1, splitPartsF_ws_empty _ _ _ hws]
  have hne2 : line.isEmpty = false := by
    cases line with
    | nil => exact absurd rfl hne
    | cons a l => rfl
  have hcnt2 : ¬ st.actions.length ≥ 2 ^ 32 := by omega
  simp [processLine, hne2, hcnt2, hlm, hsp]
  omega

/-- Witness for C9 on the line `foo: `. -/
theorem label_only_line_panics_witness :
    processLine utf8Encode defaultMnemonics { actions := [], table := [] } ("foo: ").toList =
      .panic ("index out of bounds") :=
  label_only_line_panics utf8Encode defaultMnemonics { actions := [], table := [] }
    ("foo: ").toList ("foo").toList [] (by decide) (by decide) (by decide) (by decide)

/-- C7 (amended): the decoder never validates the stored record length
field against the recomputed layout `16 + 12*params + data`.  For a
record with a validated call flag and no operands whose stored length
field is smaller than the 16-byte header, the release-mode wrapped
subtraction turns the data size into a value near 2^32, and the decode
panics inside `split_to` instead of returning a length-mismatch error —
for every realistic remaining buffer. -/
theorem record_short_length_panics (pos gl : ℕ) (call : Bool) (op np L : ℕ) (rest : List ℕ)
    (hnp : np = 0) (hL : L < 16) (hrest : rest.length + 16 < 2 ^ 32) :
    decodeStepTail pos gl call op np L rest = .panic ("split_to out of range") := by
  have h1 : decodeParams np ((pos + 16 + wmul 12 np) % 2 ^ 32)
      (wsub (wsub L 16) (wmul 12 np)) gl rest = .ok ([], rest) := by
    subst hnp
    rfl
  have h3 : splitTo (wsub (wsub L 16) (wmul 12 np)) rest = none := by
    have hgt : ¬ (wsub (wsub L 16) (wmul 12 np) ≤ rest.length) := by
      subst hnp
      simp only [wsub, wmul]
      omega
    simp only [splitTo]
    rw [if_neg hgt]
  suffices hs : ∀ r, decodeStepTail pos gl call op np L rest = r →
      r = .panic ("split_to out of range") from hs _ rfl
  intro r h
  rw [decodeStepTail] at h
  split at h
  · rename_i m heq
    rw [h1] at heq
    simp at heq
  · rename_i m heq
    rw [h1] at heq
    simp at heq
  · rename_i params buf heq
    rw [h1] at heq
    simp only [DResult.ok.injEq, Prod.mk.injEq] at heq
    obtain ⟨hp, hb⟩ := heq
    subst hp
    subst hb
    split at h
    · exact h.symm
    · rename_i data buf2 heq2
      rw [h3] at heq2
      simp at heq2

/-- Witness for C7 at a concrete short record tail. -/
theorem record_short_length_panics_witness :
    decodeStepTail 104 0 false 5 0 8 [1, 2, 3] = .panic ("split_to out of range") :=
  record_short_length_panics 104 0 false 5 0 8 [1, 2, 3] rfl (by decide) (by decide)

/-- Soundness of the aligned global-data scan: a found offset is reached
from the start in 4-byte steps, bears the code-start magic, and is the
first such stepped offset. -/
theorem scanGlobalF_some : ∀ (file : List ℕ) (fuel k g : ℕ),
    scanGlobalF file fuel k = some g →
    ∃ m, g = k + 4 * m ∧ CODE_START_MAGIC.isPrefixOf (file.drop g) = true ∧
      ∀ m2, m2 < m → ¬ CODE_START_MAGIC.isPrefixOf (file.drop (k + 4 * m2)) = true := by
  intro file fuel
  induction fuel with
  | zero =>
    intro k g h
    simp [scanGlobalF] at h
  | succ fuel ih =>
    intro k g h
    rw [scanGlobalF] at h
    split at h
    · simp at h
    · split at h
      · rename_i hpre
        simp only [Option.some.injEq] at h
        subst h
        exact ⟨0, by omega, hpre, fun m2 hm2 => absurd hm2 (by omega)⟩
      · rename_i hnpre
        obtain ⟨m, hm, hpre, hmin⟩ := ih (k + 4) g h
        refine ⟨m + 1, by omega, hpre, ?_⟩
        intro m2 hm2
        match m2 with
        | 0 =>
          simpa using hnpre
        | m2 + 1 =>
          have h2 := hmin m2 (by omega)
          have he : k + 4 * (m2 + 1) = k + 4 + 4 * m2 := by ring
          rw [he]
          exact h2

/-- Completeness of the scan bound: with enough fuel, a `none` result
(the modelled slice panic) means the magic occurs at no stepped
offset. -/
theorem scanGlobalF_none : ∀ (file : List ℕ) (fuel k : ℕ),
    file.length + 1 ≤ k + 4 * fuel →
    scanGlobalF file fuel k = none →
    ∀ m, CODE_START_MAGIC.isPrefixOf (file.drop (k + 4 * m)) = false := by
  intro file fuel
  induction fuel with
  | zero =>
    intro k hfuel h m
    have hdrop : file.drop (k + 4 * m) = [] := List.drop_eq_nil_of_le (by omega)
    rw [hdrop]
    rfl
  | succ fuel ih =>
    intro k hfuel h m
    rw [scanGlobalF] at h
    split at h
    · rename_i hk
      have hdrop : file.drop (k + 4 * m) = [] := List.drop_eq_nil_of_le (by omega)
      rw [hdrop]
      rfl
    · split at h
      · simp at h
      · rename_i hk hnpre
        match m with
        | 0 =>
          simp only [Bool.not_eq_true] at hnpre
          simpa using hnpre
        | m + 1 =>
          have h2 := ih (k + 4) (by omega) h m
          have he : k + 4 * (m + 1) = k + 4 + 4 * m := by ring
          rw [he]
          exact h2

/-- C10: the global-data scan of `from_bytes` (4-byte steps looking for
`CODE_START_MAGIC`) panics — modelled as `none` — exactly when the
magic occurs at no 4-byte-aligned offset of the remaining buffer; and
when it returns an offset, that offset is 4-aligned, bears the magic,
and is the first aligned occurrence. -/
theorem scan_global_aligned_iff (buf : List ℕ) :
    (scanGlobal buf 0 = none ↔
      ∀ j, CODE_START_MAGIC.isPrefixOf (buf.drop (4 * j)) = false) ∧
    (∀ g, scanGlobal buf 0 = some g →
      g % 4 = 0 ∧ CODE_START_MAGIC.isPrefixOf (buf.drop g) = true ∧
      ∀ j, 4 * j < g → CODE_START_MAGIC.isPrefixOf (buf.drop (4 * j)) = false) := by
  constructor
  · constructor
    · intro h j
      have h2 := scanGlobalF_none buf (buf.length + 2) 0 (by omega) h j
      simpa using h2
    · intro hall
      rcases hsc : scanGlobal buf 0 with _ | g
      · rfl
      · obtain ⟨m, hm, hpre, hmin⟩ := scanGlobalF_some buf (buf.length + 2) 0 g hsc
        have h2 := hall m
        rw [show 4 * m = g by omega] at h2
        rw [hpre] at h2
        simp at h2
  · intro g hg
    obtain ⟨m, hm, hpre, hmin⟩ := scanGlobalF_some buf (buf.length + 2) 0 g hg
    refine ⟨by omega, hpre, ?_⟩
    intro j hj
    have h2 := hmin j (by omega)
    have he : 0 + 4 * j = 4 * j := by omega
    rw [he] at h2
    simp only [Bool.not_eq_true] at h2
    exact h2

/-- Witness for C10: a file whose magic sits at aligned offset 4. -/
theorem scan_global_aligned_iff_witness :
    scanGlobal ([0, 0, 0, 0] ++ CODE_START_MAGIC) 0 = some 4 ∧
    (4 % 4 = 0 ∧
      CODE_START_MAGIC.isPrefixOf (([0, 0, 0, 0] ++ CODE_START_MAGIC).drop 4) = true ∧
      ∀ j, 4 * j < 4 →
        CODE_START_MAGIC.isPrefixOf (([0, 0, 0, 0] ++ CODE_START_MAGIC).drop (4 * j)) = false) :=
  ⟨rfl, (scan_global_aligned_iff ([0, 0, 0, 0] ++ CODE_START_MAGIC)).2 4 rfl⟩

/-- `IndexMap::insert` grows the table by at most one entry. -/
theorem tableInsert_len : ∀ (t : PTable) (k : List ℕ) (v : Option ℕ),
    (tableInsert t k v).length ≤ t.length + 1 := by
  intro t k v
  induction t with
  | nil => simp [tableInsert]
  | cons p rest ih =>
    obtain ⟨k2, v2⟩ := p
    rw [tableInsert]
    split
    · simp
    · simp only [List.length_cons]
      omega

/-- `entry().or_default()` grows the table by at most one entry. -/
theorem tableEntryOrDefault_len : ∀ (t : PTable) (k : List ℕ),
    ((tableEntryOrDefault t k).2).length ≤ t.length + 1 := by
  intro t k
  rw [tableEntryOrDefault]
  split
  · simp
  · simp

/-- Parsing one operand token grows the pending table by at most one
entry. -/
theorem processParam_table_len : ∀ (enc : List Char → List ℕ) (table : PTable)
    (data : List ℕ) (param : List Char) (p : Parameter) (d2 : List ℕ) (t2 : PTable),
    processParam enc table data param = .ok (p, d2, t2) → t2.length ≤ table.length + 1 := by
  intro enc table data param p d2 t2 h
  simp only [processParam] at h
  repeat' (split at h <;> try (solve | simp at h))
  all_goals
    simp only [DResult.ok.injEq, Prod.mk.injEq] at h
    obtain ⟨h1, h2, h3⟩ := h
    subst h3
    first
      | exact Nat.le_succ _
      | exact tableEntryOrDefault_len _ _

/-- Parsing a list of operand tokens grows the table by at most one entry
per token. -/
theorem processParams_table_len : ∀ (enc : List Char → List ℕ) (ps : List (List Char))
    (table : PTable) (data : List ℕ) (out : List Parameter) (d2 : List ℕ) (t2 : PTable),
    processParams enc table data ps = .ok (out, d2, t2) →
    t2.length ≤ table.length + ps.length := by
  intro enc ps
  induction ps with
  | nil =>
    intro table data out d2 t2 h
    simp [processParams] at h
    simp [h.2.2.symm]
  | cons p rest ih =>
    intro table data out d2 t2 h
    rw [processParams] at h
    split at h <;> try (solve | simp at h)
    rename_i p1 d1 t1 h1
    split at h <;> try (solve | simp at h)
    rename_i ps2 d3 t3 h2
    simp only [DResult.ok.injEq, Prod.mk.injEq] at h
    obtain ⟨ha, hb, hc⟩ := h
    subst hc
    have e1 := processParam_table_len _ _ _ _ _ _ _ h1
    have e2 := ih _ _ _ _ _ h2
    simp only [List.length_cons]
    omega

/-- Parsing a list of operand tokens yields one operand per token. -/
theorem processParams_out_len : ∀ (enc : List Char → List ℕ) (ps : List (List Char))
    (table : PTable) (data : List ℕ) (out : List Parameter) (d2 : List ℕ) (t2 : PTable),
    processParams enc table data ps = .ok (out, d2, t2) → out.length = ps.length := by
  intro enc ps
  induction ps with
  | nil =>
    intro table data out d2 t2 h
    simp [processParams] at h
    simp [h.1.symm]
  | cons p rest ih =>
    intro table data out d2 t2 h
    rw [processParams] at h
    split at h <;> try (solve | simp at h)
    rename_i p1 d1 t1 h1
    split at h <;> try (solve | simp at h)
    rename_i ps2 d3 t3 h2
    simp only [DResult.ok.injEq, Prod.mk.injEq] at h
    obtain ⟨ha, hb, hc⟩ := h
    subst ha
    simp only [List.length_cons]
    have e := ih _ _ _ _ _ h2
    omega

/-- Parsing the opcode token grows the table by at most one entry. -/
theorem parseOpcode_table_len : ∀ (mn : Mnemonics) (table : PTable) (op : List Char)
    (call : Bool) (opc : ℕ) (t2 : PTable),
    parseOpcode mn table op = .ok (call, opc, t2) → t2.length ≤ table.length + 1 := by
  intro mn table op call opc t2 h
  simp only [parseOpcode] at h
  repeat' (split at h <;> try (solve | simp at h))
  all_goals
    simp only [DResult.ok.injEq, Prod.mk.injEq] at h
    obtain ⟨h1, h2, h3⟩ := h
    subst h3
    first
      | exact Nat.le_succ _
      | exact tableEntryOrDefault_len _ _

/-- Cost of an appended action list. -/
theorem costA_append : ∀ (a b : List Action), costA (a ++ b) = costA a + costA b := by
  intro a b
  simp [costA]

/-- One parsed line grows the pending table by at most the cost of the
action it appends. -/
theorem processLine_bound : ∀ (enc : List Char → List ℕ) (mn : Mnemonics) (st : PState)
    (line : List Char) (st2 : PState),
    processLine enc mn st line = .ok st2 →
    st2.table.length + costA st.actions ≤ st.table.length + costA st2.actions := by
  intro enc mn st line st2 h
  simp only [processLine] at h
  split at h
  · simp only [DResult.ok.injEq] at h
    subst h
    omega
  · split at h <;> try (solve | simp at h)
    split at h <;> try (solve | simp at h)
    rename_i parts junkOpt hsp
    split at h <;> try (solve | simp at h)
    rename_i op rest2
    split at h <;> try (solve | simp at h)
    rename_i call opcode t2 hop
    split at h <;> try (solve | simp at h)
    rename_i data0 hjunk
    split at h <;> try (solve | simp at h)
    rename_i params d3 t3 hpp
    simp only [DResult.ok.injEq] at h
    subst h
    have e2 := parseOpcode_table_len _ _ _ _ _ _ hop
    have e3 := processParams_table_len _ _ _ _ _ _ _ hpp
    have e4 := processParams_out_len _ _ _ _ _ _ _ hpp
    have e1 : (match labelMatch line with
        | some (lab, _) => tableInsert st.table (decode_label lab) (some st.actions.length)
        | none => st.table).length ≤ st.table.length + 1 := by
      rcases labelMatch line with _ | ⟨lab, r2⟩
      · simp
      · simpa using tableInsert_len st.table (decode_label lab) (some st.actions.length)
    rw [costA_append]
    simp only [costA, List.map_cons, List.sum_cons, List.map_nil, List.sum_nil]
    omega

/-- Over a whole run the pending-table size is bounded by the total cost
of the parsed actions. -/
theorem processLines_bound : ∀ (enc : List Char → List ℕ) (mn : Mnemonics)
    (lines : List (List Char)) (st st2 : PState),
    processLines enc mn lines st = .ok st2 →
    st2.table.length + costA st.actions ≤ st.table.length + costA st2.actions := by
  intro enc mn lines
  induction lines with
  | nil =>
    intro st st2 h
    simp [processLines] at h
    subst h
    omega
  | cons l rest ih =>
    intro st st2 h
    rw [processLines] at h
    split at h <;> try (solve | simp at h)
    rename_i st1 h1
    have e1 := processLine_bound _ _ _ _ _ h1
    have e2 := ih _ _ h
    omega

/-- Patching four bytes preserves the buffer length. -/
theorem setLE32_length : ∀ (p n : ℕ) (l : List ℕ), (setLE32 p n l).length = l.length := by
  intro p n l
  simp [setLE32]

/-- One emitted operand is exactly 12 bytes. -/
theorem emitParam_len : ∀ (f cb db : ℕ) (prm : Parameter) (bs : List ℕ),
    emitParam f cb db prm = .ok bs → bs.length = 12 := by
  intro f cb db prm bs h
  cases prm <;> simp only [emitParam] at h <;> repeat' (split at h <;> try (solve | simp at h))
  all_goals
    simp only [DResult.ok.injEq] at h
    rw [← h]
    simp [toLE4]

/-- Emitted operands are 12 bytes each. -/
theorem emitParams_len : ∀ (f cb db : ℕ) (ps : List Parameter) (bss : List ℕ),
    emitParams f cb db ps = .ok bss → bss.length = 12 * ps.length := by
  intro f cb db ps
  induction ps with
  | nil =>
    intro bss h
    simp [emitParams] at h
    simp [h.symm]
  | cons p rest ih =>
    intro bss h
    rw [emitParams] at h
    split at h <;> try (solve | simp at h)
    rename_i bs1 h1
    split at h <;> try (solve | simp at h)
    rename_i bss2 h2
    simp only [DResult.ok.injEq] at h
    rw [← h]
    have e1 := emitParam_len _ _ _ _ _ h1
    have e2 := ih _ h2
    simp only [List.length_append, List.length_cons]
    omega

/-- Length of the output after emitting one action record. -/
theorem emitAction_out_len : ∀ (f cb : ℕ) (out : List ℕ) (exp : List (List ℕ × ℕ))
    (pos : ℕ) (act : Action) (out2 : List ℕ) (exp2 : List (List ℕ × ℕ)),
    emitAction f cb out exp pos act = .ok (out2, exp2) →
    out2.length = out.length + 16 + 12 * act.params.length + act.data.length := by
  intro f cb out exp pos act out2 exp2 h
  simp only [emitAction] at h
  split at h <;> try (solve | simp at h)
  split at h <;> try (solve | simp at h)
  split at h <;> try (solve | simp at h)
  split at h <;> try (solve | simp at h)
  split at h <;> try (solve | simp at h)
  rename_i pbytes hpb
  simp only [DResult.ok.injEq, Prod.mk.injEq] at h
  obtain ⟨h1, h2⟩ := h
  rw [← h1]
  have e := emitParams_len _ _ _ _ _ hpb
  simp only [List.length_append, toLE4, List.length_cons, List.length_nil]
  omega

/-- Emitting the action stream grows the output by at least the cost of
the actions. -/
theorem emitActions_ge : ∀ (f cb : ℕ) (pairs : List (ℕ × Action)) (out : List ℕ)
    (exp : List (List ℕ × ℕ)) (out2 : List ℕ) (exp2 : List (List ℕ × ℕ)),
    emitActions f cb out exp pairs = .ok (out2, exp2) →
    out.length + costP pairs ≤ out2.length := by
  intro f cb pairs
  induction pairs with
  | nil =>
    intro out exp out2 exp2 h
    simp [emitActions] at h
    simp [costP, h.1.symm]
  | cons q rest ih =>
    intro out exp out2 exp2 h
    obtain ⟨pos, act⟩ := q
    rw [emitActions] at h
    split at h <;> try (solve | simp at h)
    rename_i out1 exp1 h1
    have e1 := emitAction_out_len _ _ _ _ _ _ _ _ h1
    have e2 := ih _ _ _ _ h
    simp only [costP, List.map_cons, List.sum_cons] at e2 ⊢
    omega

/-- Emitting export records never shrinks the output. -/
theorem emitExports_ge : ∀ (exps : List (List ℕ × ℕ)) (out out2 : List ℕ),
    emitExports out exps = .ok out2 → out.length ≤ out2.length := by
  intro exps
  induction exps with
  | nil =>
    intro out out2 h
    simp [emitExports] at h
    subst h
    exact Nat.le_refl _
  | cons q rest ih =>
    intro out out2 h
    obtain ⟨name, addr⟩ := q
    rw [emitExports] at h
    split at h <;> try (solve | simp at h)
    split at h <;> try (solve | simp at h)
    have e := ih _ _ h
    simp only [List.length_append] at e
    omega

/-- The core emission produces at least `costP` bytes. -/
theorem emitCore_ge : ∀ (tag gd : List ℕ) (f : ℕ) (pairs : List (ℕ × Action))
    (core : List ℕ), emitCore tag gd f pairs = .ok core → costP pairs ≤ core.length := by
  intro tag gd f pairs core h
  simp only [emitCore] at h
  split at h <;> try (solve | simp at h)
  split at h <;> try (solve | simp at h)
  split at h <;> try (solve | simp at h)
  rename_i outA expA hA
  split at h <;> try (solve | simp at h)
  split at h <;> try (solve | simp at h)
  split at h <;> try (solve | simp at h)
  rename_i outE hE
  split at h <;> try (solve | simp at h)
  simp only [DResult.ok.injEq] at h
  have e1 := emitActions_ge _ _ _ _ _ _ _ hA
  have e2 := emitExports_ge _ _ _ hE
  rw [setLE32_length, setLE32_length] at e2
  rw [← h, setLE32_length, setLE32_length]
  simp only [List.length_append] at e2 ⊢
  omega

/-- Sentinel resolution preserves the operand count. -/
theorem resolveParams_len : ∀ (t : PTable) (ps ps2 : List Parameter),
    resolveParams t ps = .ok ps2 → ps2.length = ps.length := by
  intro t ps
  induction ps with
  | nil =>
    intro ps2 h
    simp [resolveParams] at h
    simp [h.symm]
  | cons p rest ih =>
    intro ps2 h
    rw [resolveParams] at h
    split at h <;> try (solve | simp at h)
    split at h <;> try (solve | simp at h)
    rename_i ps3 h2
    simp only [DResult.ok.injEq] at h
    rw [← h]
    simp only [List.length_cons]
    have e := ih _ h2
    omega

/-- Sentinel resolution preserves an action's operand count. -/
theorem resolveAction_params : ∀ (t : PTable) (act act2 : Action),
    resolveAction t act = .ok act2 → act2.params.length = act.params.length := by
  intro t act act2 h
  simp only [resolveAction] at h
  split at h <;> try (solve | simp at h)
  split at h <;> try (solve | simp at h)
  rename_i ps2 h2
  simp only [DResult.ok.injEq] at h
  rw [← h]
  exact resolveParams_len _ _ _ h2

/-- Sentinel resolution preserves the total cost. -/
theorem resolveActions_cost : ∀ (t : PTable) (acts racts : List Action),
    resolveActions t acts = .ok racts → costA racts = costA acts := by
  intro t acts
  induction acts with
  | nil =>
    intro racts h
    simp [resolveActions] at h
    simp [costA, h.symm]
  | cons a rest ih =>
    intro racts h
    rw [resolveActions] at h
    split at h <;> try (solve | simp at h)
    rename_i a2 h1
    split at h <;> try (solve | simp at h)
    rename_i rest2 h2
    simp only [DResult.ok.injEq] at h
    rw [← h]
    have e1 := resolveAction_params _ _ _ h1
    have e2 := ih _ h2
    simp only [costA, List.map_cons, List.sum_cons] at e2 ⊢
    omega

/-- Offset renaming preserves the operand count. -/
theorem renameParams_len : ∀ (renames : List ℕ) (ps ps2 : List Parameter),
    renameParams renames ps = .ok ps2 → ps2.length = ps.length := by
  intro renames ps
  induction ps with
  | nil =>
    intro ps2 h
    simp [renameParams] at h
    simp [h.symm]
  | cons p rest ih =>
    intro ps2 h
    rw [renameParams] at h
    split at h <;> try (solve | simp at h)
    split at h <;> try (solve | simp at h)
    rename_i ps3 h2
    simp only [DResult.ok.injEq] at h
    rw [← h]
    simp only [List.length_cons]
    have e := ih _ h2
    omega

/-- Offset renaming preserves an action's operand count. -/
theorem renameAction_params : ∀ (renames : List ℕ) (i : ℕ) (act : Action) (pa : ℕ × Action),
    renameAction renames i act = .ok pa → (pa.2).params.length = act.params.length := by
  intro renames i act pa h
  obtain ⟨pos, act2⟩ := pa
  simp only [renameAction] at h
  split at h <;> try (solve | simp at h)
  split at h <;> try (solve | simp at h)
  split at h <;> try (solve | simp at h)
  rename_i ps2 h2
  simp only [DResult.ok.injEq, Prod.mk.injEq] at h
  obtain ⟨h1, h3⟩ := h
  rw [← h3]
  exact renameParams_len _ _ _ h2

/-- Offset renaming preserves the total cost. -/
theorem renameActions_cost : ∀ (renames : List ℕ) (racts : List Action) (i : ℕ)
    (pairs : List (ℕ × Action)),
    renameActions renames i racts = .ok pairs → costP pairs = costA racts := by
  intro renames racts
  induction racts with
  | nil =>
    intro i pairs h
    simp [renameActions] at h
    subst h
    simp [costP, costA]
  | cons a rest ih =>
    intro i pairs h
    rw [renameActions] at h
    split at h <;> try (solve | simp at h)
    rename_i pa h1
    split at h <;> try (solve | simp at h)
    rename_i ps h2
    simp only [DResult.ok.injEq] at h
    rw [← h]
    have e1 := renameAction_params _ _ _ _ h1
    have e2 := ih _ _ h2
    simp only [costP, costA, List.map_cons, List.sum_cons] at e2 ⊢
    omega

/-- The final pending table is never larger than the emitted file. -/
theorem asm_table_le_out : ∀ (enc : List Char → List ℕ) (mn : Mnemonics)
    (rawLines : List (List Char)) (r : AsmResult),
    asm_run enc mn rawLines = .ok r → r.table.length ≤ r.out.length := by
  intro enc mn rawLines r h
  simp only [asm_run] at h
  split at h <;> try (solve | simp at h)
  split at h <;> try (solve | simp at h)
  split at h <;> try (solve | simp at h)
  split at h <;> try (solve | simp at h)
  split at h <;> try (solve | simp at h)
  split at h <;> try (solve | simp at h)
  split at h <;> try (solve | simp at h)
  rename_i st hpl
  split at h <;> try (solve | simp at h)
  rename_i racts hres
  split at h <;> try (solve | simp at h)
  rename_i renames hren
  split at h <;> try (solve | simp at h)
  rename_i pairs hpair
  split at h <;> try (solve | simp at h)
  rename_i core hcore
  split at h <;> try (solve | simp at h)
  rename_i out hfin
  simp only [DResult.ok.injEq] at h
  rw [← h]
  dsimp only
  have e1 := processLines_bound _ _ _ _ _ hpl
  simp only [costA, List.map_nil, List.sum_nil, List.length_nil] at e1
  have e2 := resolveActions_cost _ _ _ hres
  have e3 := renameActions_cost _ _ _ _ hpair
  have e4 := emitCore_ge _ _ _ _ _ hcore
  obtain ⟨e5, -, -⟩ := finalizeFile_spec _ _ hfin
  simp only [costA] at e1 e2 e3 e4
  omega

/-- C6: during one assembly run that produces a file smaller than 2^31
bytes, the sentinel `!i` (bitwise complement of a pending-table
insertion index) can never equal a resolved byte offset of that file:
the table has at most as many entries as the file has bytes, so every
complement lies at or above 2^31 while every offset lies below it. -/
theorem sentinel_no_collision (enc : List Char → List ℕ) (mn : Mnemonics)
    (rawLines : List (List Char)) (r : AsmResult)
    (h : asm_run enc mn rawLines = .ok r) (hsize : r.out.length < 2 ^ 31)
    (i : ℕ) (hi : i < r.table.length) (off : ℕ) (hoff : off ≤ r.out.length) :
    compl32 i ≠ off := by
  have hb := asm_table_le_out _ _ _ _ h
  simp only [compl32]
  omega

/-- Witness for C6 at the example run: the first insertion index's
sentinel collides with no offset of the 308-byte file. -/
theorem sentinel_no_collision_witness : compl32 0 ≠ 308 :=
  sentinel_no_collision utf8Encode defaultMnemonics exampleLines exampleRun rfl
    (by decide) 0 (by decide) 308 (by decide)

/-- Chunk labels distribute over appended member lists. -/
theorem chunkLabels_append : ∀ (x y : List (ℕ × Action)),
    chunkLabels (x ++ y) = chunkLabels x ++ chunkLabels y := by
  intro x y
  simp [chunkLabels]

/-- The split phase produces chunks whose label lists are exactly their
members' labels, and whose members cover the input in order. -/
theorem splitChunksAux_spec : ∀ (rest : List (ℕ × Action)) (curL : List ℕ)
    (curC : List (ℕ × Action)), curL = chunkLabels curC →
    (∀ c ∈ splitChunksAux rest curL curC, c.1 = chunkLabels c.2) ∧
    ((splitChunksAux rest curL curC).map Prod.snd).flatten = curC ++ rest := by
  intro rest
  induction rest with
  | nil =>
    intro curL curC hg
    rw [splitChunksAux]
    split
    · rename_i he
      constructor
      · intro c hc
        simp at hc
      · simp at he
        simp [he]
    · constructor
      · intro c hc
        simp at hc
        subst hc
        exact hg
      · simp
  | cons p rest ih =>
    intro curL curC hg
    obtain ⟨a, act⟩ := p
    simp only [splitChunksAux]
    have hg2 : curL ++ labelsOfAct a act = chunkLabels (curC ++ [(a, act)]) := by
      rw [chunkLabels_append, hg]
      simp [chunkLabels]
    split
    · obtain ⟨ihg, ihf⟩ := ih [] [] rfl
      constructor
      · intro c hc
        simp only [List.mem_cons] at hc
        rcases hc with hc | hc
        · subst hc
          exact hg2
        · exact ihg c hc
      · simp only [List.map_cons, List.flatten_cons, ihf]
        simp
    · obtain ⟨ihg, ihf⟩ := ih (curL ++ labelsOfAct a act) (curC ++ [(a, act)]) hg2
      refine ⟨ihg, ?_⟩
      rw [ihf]
      simp

/-- A `none` result of the reversed intersection scan means the head's
labels are disjoint from every later chunk. -/
theorem lastIntersect_none : ∀ (hh : List ℕ) (l : List LChunk),
    lastIntersect hh l = none → ∀ c ∈ l, disjointB hh c.1 = true := by
  intro hh l
  induction l with
  | nil =>
    intro _ c hc
    simp at hc
  | cons c0 rest ih =>
    intro hnone c hc
    rw [lastIntersect] at hnone
    split at hnone
    · simp at hnone
    · rename_i hrest
      split at hnone
      · rename_i hd
        simp only [List.mem_cons] at hc
        rcases hc with hc | hc
        · subst hc
          exact hd
        · exact ih hrest c hc
      · simp at hnone

/-- Boolean disjointness unfolded to membership. -/
theorem disjointB_iff : ∀ (a b : List ℕ), disjointB a b = true ↔ ∀ x ∈ a, ¬ x ∈ b := by
  intro a b
  simp [disjointB]

/-- Good chunk lists: the concatenation of their label lists is the
labels of the concatenation of their member lists. -/
theorem goodFlatten : ∀ (l : List LChunk), (∀ d ∈ l, d.1 = chunkLabels d.2) →
    ((l.map Prod.fst).flatten) = chunkLabels ((l.map Prod.snd).flatten) := by
  intro l
  induction l with
  | nil =>
    intro _
    simp [chunkLabels]
  | cons d rest ih =>
    intro hg
    simp only [List.map_cons, List.flatten_cons]
    rw [chunkLabels_append, hg d (by simp), ih (fun x hx => hg x (by simp [hx]))]

/-- The inner merge loop preserves the member stream, only moves labels
around, keeps the remaining chunks a subset of the input, and preserves
chunk goodness. -/
theorem mergeLoopF_spec : ∀ (fuel : ℕ) (c : LChunk) (post : List LChunk),
    ((mergeLoopF fuel c post).1.2 ++ (((mergeLoopF fuel c post).2).map Prod.snd).flatten =
      c.2 ++ (post.map Prod.snd).flatten) ∧
    (∀ x ∈ (mergeLoopF fuel c post).1.1, x ∈ c.1 ∨ ∃ d ∈ post, x ∈ d.1) ∧
    (∀ d ∈ (mergeLoopF fuel c post).2, d ∈ post) ∧
    ((c.1 = chunkLabels c.2 ∧ ∀ d ∈ post, d.1 = chunkLabels d.2) →
      ((mergeLoopF fuel c post).1.1 = chunkLabels (mergeLoopF fuel c post).1.2 ∧
       ∀ d ∈ (mergeLoopF fuel c post).2, d.1 = chunkLabels d.2)) := by
  intro fuel
  induction fuel with
  | zero =>
    intro c post
    exact ⟨rfl, fun x hx => Or.inl hx, fun d hd => hd, fun hg => ⟨hg.1, hg.2⟩⟩
  | succ fuel ih =>
    intro c post
    rw [mergeLoopF]
    split
    · exact ⟨rfl, fun x hx => Or.inl hx, fun d hd => hd, fun hg => ⟨hg.1, hg.2⟩⟩
    · rename_i i hli
      obtain ⟨ihf, ihm, ihs, ihg⟩ := ih
        (c.1 ++ ((post.take (i + 1)).map Prod.fst).flatten,
         c.2 ++ ((post.take (i + 1)).map Prod.snd).flatten)
        (post.drop (i + 1))
      refine ⟨?_, ?_, ?_, ?_⟩
      · rw [ihf]
        dsimp only
        rw [List.append_assoc, ← List.flatten_append, ← List.map_append,
          List.take_append_drop]
      · intro x hx
        rcases ihm x hx with hx2 | ⟨d, hd, hxd⟩
        · simp only [List.mem_append] at hx2
          rcases hx2 with hx3 | hx3
          · exact Or.inl hx3
          · right
            simp only [List.mem_flatten, List.mem_map] at hx3
            obtain ⟨lab, ⟨d, hd, hld⟩, hxl⟩ := hx3
            exact ⟨d, List.take_subset _ _ hd, hld ▸ hxl⟩
        · exact Or.inr ⟨d, (List.drop_suffix _ _).subset hd, hxd⟩
      · intro d hd
        exact (List.drop_suffix _ _).subset (ihs d hd)
      · rintro ⟨hgc, hgp⟩
        apply ihg
        constructor
        · dsimp only
          rw [chunkLabels_append, hgc,
            goodFlatten _ (fun d hd => hgp d (List.take_subset _ _ hd))]
        · intro d hd
          exact hgp d ((List.drop_suffix _ _).subset hd)

/-- With enough fuel the inner merge loop finishes with a chunk disjoint
from every remaining later chunk. -/
theorem mergeLoopF_done : ∀ (fuel : ℕ) (c : LChunk) (post : List LChunk),
    post.length < fuel →
    lastIntersect (mergeLoopF fuel c post).1.1 (mergeLoopF fuel c post).2 = none := by
  intro fuel
  induction fuel with
  | zero =>
    intro c post h
    exact absurd h (by omega)
  | succ fuel ih =>
    intro c post h
    rw [mergeLoopF]
    split
    · rename_i hli
      exact hli
    · rename_i i hli
      apply ih
      have hlt := lastIntersect_lt _ _ _ hli
      simp only [List.length_drop]
      omega

/-- The outer merge loop: preserves the member stream, takes labels from
the input chunks, preserves goodness, and leaves pairwise disjoint
label lists. -/
theorem mergeAllF_spec : ∀ (fuel : ℕ) (l : List LChunk), l.length < fuel →
    (((mergeAllF fuel l).map Prod.snd).flatten = (l.map Prod.snd).flatten) ∧
    (∀ c ∈ mergeAllF fuel l, ∀ x ∈ c.1, ∃ d ∈ l, x ∈ d.1) ∧
    ((∀ c ∈ l, c.1 = chunkLabels c.2) → ∀ c ∈ mergeAllF fuel l, c.1 = chunkLabels c.2) ∧
    List.Pairwise (fun a b => disjointB a.1 b.1 = true) (mergeAllF fuel l) := by
  intro fuel
  induction fuel with
  | zero =>
    intro l h
    exact absurd h (by omega)
  | succ fuel ih =>
    intro l h
    match l with
    | [] =>
      refine ⟨rfl, ?_, ?_, ?_⟩
      · intro c hc
        exact absurd hc (by simp [mergeAllF])
      · intro _ c hc
        exact absurd hc (by simp [mergeAllF])
      · exact List.Pairwise.nil
    | c :: rest =>
      have he : mergeAllF (fuel + 1) (c :: rest) =
          (mergeLoopF (rest.length + 1) c rest).1 ::
            mergeAllF fuel (mergeLoopF (rest.length + 1) c rest).2 := rfl
      rw [he]
      have hlen : (mergeLoopF (rest.length + 1) c rest).2.length ≤ rest.length :=
        mergeLoopF_len _ _ _
      have hlen2 : (mergeLoopF (rest.length + 1) c rest).2.length < fuel := by
        simp only [List.length_cons] at h
        omega
      obtain ⟨ihf, ihm, ihg, ihp⟩ := ih (mergeLoopF (rest.length + 1) c rest).2 hlen2
      obtain ⟨mlf, mlm, mls, mlg⟩ := mergeLoopF_spec (rest.length + 1) c rest
      have hdone := mergeLoopF_done (rest.length + 1) c rest (by omega)
      have hdisj := lastIntersect_none _ _ hdone
      refine ⟨?_, ?_, ?_, ?_⟩
      · simp only [List.map_cons, List.flatten_cons]
        rw [ihf]
        exact mlf
      · intro c2 hc2 x hx
        simp only [List.mem_cons] at hc2
        rcases hc2 with hc2 | hc2
        · subst hc2
          rcases mlm x hx with h1 | ⟨d, hd, hxd⟩
          · exact ⟨c, by simp, h1⟩
          · exact ⟨d, by simp [hd], hxd⟩
        · obtain ⟨d, hd, hxd⟩ := ihm c2 hc2 x hx
          exact ⟨d, by simp [mls d hd], hxd⟩
      · intro hgood c2 hc2
        have hgc : c.1 = chunkLabels c.2 := hgood c (by simp)
        have hgr : ∀ d ∈ rest, d.1 = chunkLabels d.2 := fun d hd => hgood d (by simp [hd])
        obtain ⟨g1, g2⟩ := mlg ⟨hgc, hgr⟩
        simp only [List.mem_cons] at hc2
        rcases hc2 with hc2 | hc2
        · subst hc2
          exact g1
        · exact ihg g2 c2 hc2
      · constructor
        · intro b hb
          rw [disjointB_iff]
          intro x hx hxb
          obtain ⟨d, hd, hxd⟩ := ihm b hb x hxb
          have hdj := hdisj d hd
          rw [disjointB_iff] at hdj
          exact hdj x hx hxd
        · exact ihp

/-- C5: `chunk_actions` terminates and partitions the action map — the
concatenation of the returned chunks is exactly the input, in address
order — and the chunks' label sets (member addresses plus contained
`ActionRef` targets) are pairwise disjoint. -/
theorem chunk_actions_partition (acts : List (ℕ × Action)) :
    (chunk_actions acts).flatten = acts ∧
    List.Pairwise (fun c1 c2 => ∀ x ∈ chunkLabels c1, ¬ x ∈ chunkLabels c2)
      (chunk_actions acts) := by
  obtain ⟨hSg, hSf⟩ := splitChunksAux_spec acts [] [] rfl
  obtain ⟨hf, hm, hg, hp⟩ := mergeAllF_spec ((splitChunksAux acts [] []).length + 1)
    (splitChunksAux acts [] []) (by omega)
  constructor
  · simp only [chunk_actions, mergeAll]
    rw [hf, hSf]
    simp
  · simp only [chunk_actions, mergeAll]
    rw [List.pairwise_map]
    have hall := hg hSg
    apply List.Pairwise.imp_of_mem ?_ hp
    intro a b ha hb hdj x hx hxb
    rw [disjointB_iff] at hdj
    have ha2 := hall a ha
    have hb2 := hall b hb
    rw [← ha2] at hx
    rw [← hb2] at hxb
    exact hdj x hx hxb

/-- Witness for C5 at a concrete (empty) action map. -/
theorem chunk_actions_partition_witness :
    (chunk_actions ([] : List (ℕ × Action))).flatten = [] ∧
    List.Pairwise (fun c1 c2 => ∀ x ∈ chunkLabels c1, ¬ x ∈ chunkLabels c2)
      (chunk_actions ([] : List (ℕ × Action))) :=
  chunk_actions_partition []

end Stcm2
